import Mathlib

/-!
# Verification of the tool-time transcript parsers and analytics engine

Shallow embedding of `src/parsers.py` (the three transcript parsers) and
`src/analyze.py` (the analytics engine), together with theorems settling the
frozen claims about the natural-language specification.

Modelling conventions:
* JSON records are modelled by `JValue` / `JObj` (association lists of fields;
  `json.loads` yields objects with unique keys, duplicates resolved last-wins
  before our model sees them).  JSON numbers are modelled as `Int`: every
  numeric field the analysed code inspects is an epoch-millisecond integer.
* Python `dict` is modelled as an insertion-ordered association list whose
  update keeps the original position of an existing key, exactly as CPython.
* Python `float` ratio comparisons (`x / total > 0.25` …) are modelled as
  exact rational / cross-multiplied integer comparisons, and `round(x, k)` as
  exact half-to-even rounding on `Rat`.
* Python `set` iteration order is unspecified; sets are modelled as
  insertion-ordered duplicate-free lists.  No settled claim depends on the
  iteration order of a set.
-/

set_option maxRecDepth 10000

namespace ToolTime

/-- JSON values as produced by `json.loads` (numbers restricted to integers,
which is the only numeric shape the analysed code paths inspect). -/
inductive JValue where
  | null : JValue
  | bool : Bool → JValue
  | num : Int → JValue
  | str : String → JValue
  | arr : List JValue → JValue
  | obj : List (String × JValue) → JValue

/-- A JSON object record: one line of a transcript after `json.loads`. -/
abbrev JObj := List (String × JValue)

/-- `record.get(key)`: first binding of `key` (keys of a parsed JSON object
are unique). -/
def jget (o : JObj) (key : String) : Option JValue :=
  match o with
  | [] => none
  | (k, v) :: rest => if k = key then some v else jget rest key

/-- `record.get(key, default)`. -/
def jgetD (o : JObj) (key : String) (d : JValue) : JValue :=
  (jget o key).getD d

/-- `record.get(key, default)` for fields the code consumes as strings
(`cwd`, `sessionId`, tool names, …).  A present non-string value is outside
the modelled domain and maps to the default. -/
def jgetStrD (o : JObj) (key : String) (d : String) : String :=
  match jget o key with
  | some (.str s) => s
  | _ => d

/-- Python truthiness of a JSON value (`if x:`). -/
def jtruthy : JValue → Bool
  | .null => false
  | .bool b => b
  | .num n => n != 0
  | .str s => s ≠ ""
  | .arr xs => !xs.isEmpty
  | .obj fs => !fs.isEmpty

/-- `d.get(key) or d.get(key2) or None` chains over string-valued argument
fields: a present, truthy string is returned, anything else falls through. -/
def jgetTruthyStr (o : JObj) (key : String) : Option String :=
  match jget o key with
  | some (.str s) => if s = "" then none else some s
  | _ => none

mutual
/-- Python `str()` of a JSON value (used for codex `output` and claude
`content` result fields).  Containers render as Python `repr` does, minus
string-escape handling, which no analysed code path depends on. -/
def pyStr : JValue → String
  | .null => "None"
  | .bool true => "True"
  | .bool false => "False"
  | .num n => toString n
  | .str s => s
  | .arr xs => "[" ++ pyStrList xs ++ "]"
  | .obj fs => "\x7b" ++ pyStrObj fs ++ "\x7d"

/-- `repr` of a JSON value appearing inside a container. -/
def pyRepr : JValue → String
  | .str s => "'" ++ s ++ "'"
  | v => pyStr v

def pyStrList : List JValue → String
  | [] => ""
  | [x] => pyRepr x
  | x :: xs => pyRepr x ++ ", " ++ pyStrList xs

def pyStrObj : List (String × JValue) → String
  | [] => ""
  | [(k, v)] => "'" ++ k ++ "': " ++ pyRepr v
  | (k, v) :: fs => "'" ++ k ++ "': " ++ pyRepr v ++ ", " ++ pyStrObj fs
end

/-- Python `str.split(sep)` (non-empty separator) on character lists; the
fuel argument (initialized to the input length, always sufficient) makes the
recursion structural so that proofs can evaluate it. -/
def pySplitAux (sep : List Char) (cur : List Char) : Nat → List Char → List (List Char)
  | _, [] => [cur.reverse]
  | 0, cs => [cur.reverse ++ cs]
  | fuel + 1, c :: rest =>
    if sep.isPrefixOf (c :: rest) then
      cur.reverse :: pySplitAux sep [] fuel ((c :: rest).drop sep.length)
    else
      pySplitAux sep (c :: cur) fuel rest

/-- Python `str.split(sep)` for a non-empty separator (every separator used
by the analysed code is non-empty; Python raises on an empty one). -/
def pySplit (s sep : String) : List String :=
  if sep.toList.isEmpty then [s]
  else (pySplitAux sep.toList [] s.toList.length s.toList).map String.mk

/-- Python `str.strip()` restricted to ASCII whitespace. -/
def pyStrip (s : String) : String :=
  let ws := fun c => c = ' ' ∨ c = '\t' ∨ c = '\n' ∨ c = '\r' ∨
    c = Char.ofNat 11 ∨ c = Char.ofNat 12
  String.mk (((s.toList.dropWhile ws).reverse.dropWhile ws).reverse)

-- --- Proleptic Gregorian calendar (mirrors Python `datetime.date`) ---

/-- A UTC calendar date: the date part of an event's parsed timestamp.
Time-of-day is omitted: no function embedded here inspects it. -/
structure Date where
  year : Nat
  month : Nat
  day : Nat
  deriving DecidableEq, Repr

def isLeap (y : Nat) : Bool :=
  y % 4 = 0 && (y % 100 ≠ 0 || y % 400 = 0)

def daysInMonth (y m : Nat) : Nat :=
  if m = 2 then (if isLeap y then 29 else 28)
  else if m = 4 ∨ m = 6 ∨ m = 9 ∨ m = 11 then 30
  else 31

def daysBeforeMonth (y m : Nat) : Nat :=
  (List.range m).foldl (fun acc i => if 1 ≤ i then acc + daysInMonth y i else acc) 0

/-- `datetime.date.toordinal`: day 1 is 0001-01-01. -/
def toOrdinal (d : Date) : Nat :=
  365 * (d.year - 1) + (d.year - 1) / 4 - (d.year - 1) / 100 + (d.year - 1) / 400
    + daysBeforeMonth d.year d.month + d.day

/-- CPython `datetime._isoweek1monday`: ordinal of the Monday starting ISO
week 1 of `year`. -/
def week1monday (year : Nat) : Int :=
  let firstday : Int := (toOrdinal ⟨year, 1, 1⟩ : Nat)
  let firstweekday := (firstday + 6) % 7
  let w1m := firstday - firstweekday
  if firstweekday > 3 then w1m + 7 else w1m

/-- `datetime.date.isocalendar` (year and week components), translated from
CPython's implementation. -/
def isocalendar (d : Date) : Int × Int :=
  let today : Int := (toOrdinal d : Nat)
  let diff := today - week1monday d.year
  if diff < 0 then
    ((d.year : Int) - 1, (today - week1monday (d.year - 1)).fdiv 7 + 1)
  else
    let week := diff.fdiv 7
    if week ≥ 52 ∧ today ≥ week1monday (d.year + 1) then ((d.year : Int) + 1, 1)
    else ((d.year : Int), week + 1)

def pad2 (n : Int) : String :=
  if 0 ≤ n ∧ n < 10 then "0" ++ toString n else toString n

/-- Civil date from days since the Unix epoch (Hinnant's algorithm, as used
to model `datetime.fromtimestamp(_, tz=timezone.utc)`). -/
def civilFromDays (z0 : Int) : Int × Int × Int :=
  let z := z0 + 719468
  let era := z.fdiv 146097
  let doe := z - era * 146097
  let yoe := (doe - doe.fdiv 1460 + doe.fdiv 36524 - doe.fdiv 146096).fdiv 365
  let y := yoe + era * 400
  let doy := doe - (365 * yoe + yoe.fdiv 4 - yoe.fdiv 100)
  let mp := (5 * doy + 2).fdiv 153
  let d := doy - (153 * mp + 2).fdiv 5 + 1
  let m := mp + (if mp < 10 then 3 else -9)
  (y + (if m ≤ 2 then 1 else 0), m, d)

/-- `datetime.fromtimestamp(ms / 1000, tz=timezone.utc).strftime("%Y-%m-%dT%H:%M:%SZ")`:
epoch milliseconds rendered as UTC ISO-8601 text (sub-second part floored,
exact rational arithmetic in place of the float intermediate). -/
def epochMsToIso (ms : Int) : String :=
  let secs := ms.fdiv 1000
  let days := secs.fdiv 86400
  let sod := secs - days * 86400
  let (y, m, d) := civilFromDays days
  toString y ++ "-" ++ pad2 m ++ "-" ++ pad2 d ++ "T" ++
    pad2 (sod.fdiv 3600) ++ ":" ++ pad2 ((sod.fdiv 60) % 60) ++ ":" ++
    pad2 (sod % 60) ++ "Z"

-- --- src/parsers.py: the unified event record and the three parsers ---

/-- A unified event as emitted by a transcript parser (`"v": 1` schema).
`ts` keeps the JSON shape it has in the Python dict, because not every parser
converts numeric timestamps to text.  Absent optional keys are `none`. -/
structure PEvent where
  id : String
  ts : JValue
  event : String
  tool : String
  project : String
  error : Option String
  source : String
  file : Option String := none
  skill : Option String := none
  model : Option String := none

/-- CPython `dict` assignment: an existing key keeps its position, a new key
is appended. -/
def dictSet (d : List (String × α)) (k : String) (v : α) : List (String × α) :=
  match d with
  | [] => [(k, v)]
  | (k', v') :: rest =>
    if k' = k then (k, v) :: rest else (k', v') :: dictSet rest k v

/-- `dict.pop(k, None)`: the popped value (if any) and the remaining dict. -/
def dictPop (d : List (String × α)) (k : String) : Option α × List (String × α) :=
  match d with
  | [] => (none, [])
  | (k', v') :: rest =>
    if k' = k then (some v', rest)
    else
      let (r, rest') := dictPop rest k
      (r, (k', v') :: rest')

/-- `block.get("type") == s` for a string `s`. -/
def jIsType (o : JObj) (s : String) : Bool :=
  match jget o "type" with
  | some (.str t) => t = s
  | _ => false

/-- `record.get(key, {})` followed by `isinstance(_, dict)`: `none` means the
Python `continue` branch. -/
def jgetDict (o : JObj) (key : String) : Option JObj :=
  match jget o key with
  | none => some []
  | some (.obj fields) => some fields
  | _ => none

/-- `d.get(key, [])` followed by `isinstance(_, list)`. -/
def jgetList (o : JObj) (key : String) : Option (List JValue) :=
  match jget o key with
  | none => some []
  | some (.arr xs) => some xs
  | _ => none

/-- Claude Code timestamp handling: a numeric epoch-millisecond timestamp is
rendered as UTC ISO-8601 text, anything else is kept as is. -/
def ccConvTs (v : JValue) : JValue :=
  match v with
  | .num n => .str (epochMsToIso n)
  | v => v

/-- Parser state shared by all three parsers: the pending-call correlation
table (a CPython dict keyed by the native correlation id) plus the events
yielded so far. -/
structure ParseState where
  cwd : String := ""
  session_id : String := ""
  model : String := ""
  seq : Nat := 0
  pending : List (String × PEvent) := []
  out : List PEvent := []

/-- One `tool_use` content block of a Claude Code assistant record. -/
def ccCallBlock (ts : JValue) (model : String) (st : ParseState) (block : JValue) :
    ParseState :=
  match block with
  | .obj b =>
    if jIsType b "tool_use" then
      let seq := st.seq + 1
      let tool_name := jgetStrD b "name" ""
      let tool_use_id := jgetStrD b "id" ""
      let inp := match jget b "input" with | some (.obj o) => o | _ => []
      let file_path := (jgetTruthyStr inp "file_path") <|> (jgetTruthyStr inp "path")
      let skill_name := if tool_name = "Skill" then jgetTruthyStr inp "skill" else none
      let ev : PEvent := {
        id := st.session_id ++ "-" ++ toString seq, ts := ts, event := "ToolUse",
        tool := tool_name, project := st.cwd, error := none, source := "claude-code",
        file := file_path, skill := skill_name,
        model := if model = "" then none else some model }
      { st with seq := seq, pending := dictSet st.pending tool_use_id ev }
    else st
  | _ => st

/-- Folding a Claude Code `tool_result` block's outcome into its pending
event: a truthy `is_error` sets `error` to the (joined) result text,
truncated to 200 characters. -/
def ccApplyResult (b : JObj) (ev : PEvent) : PEvent :=
  if jtruthy (jgetD b "is_error" (.bool false)) then
    let errText :=
      match jgetD b "content" (.str "") with
      | .arr blocks =>
        String.intercalate " " (blocks.filterMap (fun bl =>
          match bl with
          | JValue.obj o => some (jgetStrD o "text" "")
          | _ => none))
      | v => pyStr v
    { ev with error := some (errText.take 200) }
  else ev

/-- One `tool_result` content block of a Claude Code user record. -/
def ccResultBlock (st : ParseState) (block : JValue) : ParseState :=
  match block with
  | .obj b =>
    if jIsType b "tool_result" then
      match dictPop st.pending (jgetStrD b "tool_use_id" "") with
      | (none, _) => st
      | (some ev, pending') =>
        { st with pending := pending', out := st.out ++ [ccApplyResult b ev] }
    else st
  | _ => st

/-- The per-record context update of a Claude Code transcript: the first
record with a `cwd` and the first with a truthy `sessionId` (default the
file stem) fix the session context. -/
def ccContext (stem : String) (st : ParseState) (r : JObj) : ParseState :=
  let st := if st.cwd = "" then { st with cwd := jgetStrD r "cwd" "" } else st
  if st.session_id = "" then { st with session_id := jgetStrD r "sessionId" stem }
  else st

/-- One record (input line) of a Claude Code transcript. -/
def ccStep (stem : String) (st0 : ParseState) (r : JObj) : ParseState :=
  let st := ccContext stem st0 r
  let ts := ccConvTs (jgetD r "timestamp" (.str ""))
  let record_type := jgetStrD r "type" ""
  match jgetDict r "message" with
  | none => st
  | some msg =>
    match jgetList msg "content" with
    | none => st
    | some blocks =>
      if record_type = "assistant" then
        let model := jgetStrD msg "model" ""
        blocks.foldl (ccCallBlock ts model) st
      else if record_type = "user" then
        blocks.foldl ccResultBlock st
      else st

/-- `parse_claude_code`, over the JSON records of the transcript (lines that
fail `json.loads` are skipped before this point; `stem` is the session file
stem).  End-of-file flushes the pending-call table in insertion order. -/
def parse_claude_code (stem : String) (records : List JObj) : List PEvent :=
  let st := records.foldl (ccStep stem) {}
  st.out ++ st.pending.map (·.2)

/-- The correlation ids of the `tool_use` blocks of one content list. -/
def ccBlockCallIds (blocks : List JValue) : List String :=
  blocks.filterMap (fun b =>
    match b with
    | .obj o => if jIsType o "tool_use" then some (jgetStrD o "id" "") else none
    | _ => none)

/-- The correlation ids of the tool-call blocks of one Claude Code record,
following the record guards of `ccStep`. -/
def ccRecIds (r : JObj) : List String :=
  match jgetDict r "message" with
  | none => []
  | some msg =>
    match jgetList msg "content" with
    | none => []
    | some blocks =>
      if jgetStrD r "type" "" = "assistant" then ccBlockCallIds blocks else []

/-- The correlation ids of the tool-call records of a Claude Code
transcript, in order (used to state uniqueness hypotheses). -/
def ccCallIds : List JObj → List String
  | [] => []
  | r :: rs => ccRecIds r ++ ccCallIds rs

/-- Folding a Codex `function_call_output` payload into its pending event:
shell-style outputs carrying a non-zero `Exit code: N` marker set `error` to
the output truncated to 200 characters. -/
def cxApplyResult (payload : JObj) (ev : PEvent) : PEvent :=
  let output := pyStr (jgetD payload "output" (.str ""))
  match pySplit output "Exit code: " with
  | _ :: x :: _ =>
    let code_str := pyStrip ((pySplit x "\n").headD "")
    if code_str ≠ "0" then { ev with error := some (output.take 200) } else ev
  | _ => ev

/-- One record of a Codex CLI transcript.  The JSON-string `arguments` field
is modelled by its parsed value: `.obj` models a string parsing to an object,
anything else models the `json.loads`/`TypeError` failure path (a string
parsing to a non-object raises uncaught in Python and is outside the modelled
domain). -/
def cxStep (st : ParseState) (r : JObj) : ParseState :=
  let ts := jgetD r "timestamp" (.str "")
  let record_type := jgetStrD r "type" ""
  match jgetDict r "payload" with
  | none => st
  | some payload =>
    if record_type = "session_meta" then
      { st with cwd := jgetStrD payload "cwd" "" }
    else if record_type ≠ "response_item" then st
    else
      let payload_type := jgetStrD payload "type" ""
      if payload_type = "function_call" then
        let seq := st.seq + 1
        let tool_name := jgetStrD payload "name" ""
        let call_id := jgetStrD payload "call_id" ""
        let args := match jget payload "arguments" with | some (.obj o) => o | _ => []
        let file_path := (jgetTruthyStr args "file_path") <|> (jgetTruthyStr args "path")
        let skill_name := if tool_name = "Skill" then jgetTruthyStr args "skill" else none
        let ev : PEvent := {
          id := st.session_id ++ "-" ++ toString seq, ts := ts, event := "ToolUse",
          tool := tool_name, project := st.cwd, error := none, source := "codex",
          file := file_path, skill := skill_name }
        { st with seq := seq, pending := dictSet st.pending call_id ev }
      else if payload_type = "function_call_output" then
        match dictPop st.pending (jgetStrD payload "call_id" "") with
        | (none, _) => st
        | (some ev, pending') =>
          { st with pending := pending', out := st.out ++ [cxApplyResult payload ev] }
      else st

/-- `parse_codex`: the session id is the file stem (`rollout-…`). -/
def parse_codex (stem : String) (records : List JObj) : List PEvent :=
  let st := records.foldl cxStep { session_id := stem }
  st.out ++ st.pending.map (·.2)

/-- The `call_id` of one Codex record when it is a `function_call`. -/
def cxRecIds (r : JObj) : List String :=
  match jgetDict r "payload" with
  | none => []
  | some payload =>
    if jgetStrD r "type" "" = "response_item" ∧
        jgetStrD payload "type" "" = "function_call" then
      [jgetStrD payload "call_id" ""]
    else []

/-- The `call_id`s of the `function_call` records of a Codex transcript. -/
def cxCallIds : List JObj → List String
  | [] => []
  | r :: rs => cxRecIds r ++ cxCallIds rs

/-- One `toolCall` content block of an OpenClaw assistant message. -/
def ocCallBlock (ts : JValue) (st : ParseState) (block : JValue) : ParseState :=
  match block with
  | .obj b =>
    if jIsType b "toolCall" then
      let seq := st.seq + 1
      let tool_name := jgetStrD b "name" ""
      let tool_call_id := jgetStrD b "id" ""
      let args := match jget b "arguments" with | some (.obj o) => o | _ => []
      let file_path := (jgetTruthyStr args "path") <|> (jgetTruthyStr args "file_path")
      let ev : PEvent := {
        id := st.session_id ++ "-" ++ toString seq, ts := ts, event := "ToolUse",
        tool := tool_name, project := st.cwd, error := none, source := "openclaw",
        file := file_path,
        model := if st.model = "" then none else some st.model }
      { st with seq := seq, pending := dictSet st.pending tool_call_id ev }
    else st
  | _ => st

/-- Folding an OpenClaw `toolResult` message into its pending event: a
truthy `isError` sets `error` to the concatenated block text truncated to
200 characters (or the literal `"error"` when empty). -/
def ocApplyResult (msg : JObj) (blocks : List JValue) (ev : PEvent) : PEvent :=
  if jtruthy (jgetD msg "isError" .null) then
    let result_text := blocks.foldl (fun acc bl =>
      match bl with
      | .obj o => acc ++ jgetStrD o "text" ""
      | _ => acc) ""
    { ev with error := some (if result_text ≠ "" then result_text.take 200 else "error") }
  else ev

/-- One record of an OpenClaw transcript. -/
def ocStep (st : ParseState) (r : JObj) : ParseState :=
  let record_type := jgetStrD r "type" ""
  let ts := jgetD r "timestamp" (.str "")
  if record_type = "session" then
    { st with cwd := jgetStrD r "cwd" "",
              session_id := jgetStrD r "id" st.session_id }
  else if record_type = "model_change" then
    { st with model := jgetStrD r "modelId" "" }
  else if record_type ≠ "message" then st
  else
    match jgetDict r "message" with
    | none => st
    | some msg =>
      let role := jgetStrD msg "role" ""
      match jgetList msg "content" with
      | none => st
      | some blocks =>
        if role = "assistant" then
          blocks.foldl (ocCallBlock ts) st
        else if role = "toolResult" then
          match dictPop st.pending (jgetStrD msg "toolCallId" "") with
          | (none, _) => st
          | (some ev, pending') =>
            { st with pending := pending', out := st.out ++ [ocApplyResult msg blocks ev] }
        else st

/-- `parse_openclaw`: the session id starts as the file stem and may be
replaced by a `session` record's `id`. -/
def parse_openclaw (stem : String) (records : List JObj) : List PEvent :=
  let st := records.foldl ocStep { session_id := stem }
  st.out ++ st.pending.map (·.2)

/-- The correlation ids of the `toolCall` blocks of one content list. -/
def ocBlockCallIds (blocks : List JValue) : List String :=
  blocks.filterMap (fun b =>
    match b with
    | .obj o => if jIsType o "toolCall" then some (jgetStrD o "id" "") else none
    | _ => none)

/-- The correlation ids of the tool-call blocks of one OpenClaw record,
following the record guards of `ocStep`. -/
def ocRecIds (r : JObj) : List String :=
  if jgetStrD r "type" "" = "message" then
    match jgetDict r "message" with
    | none => []
    | some msg =>
      match jgetList msg "content" with
      | none => []
      | some blocks =>
        if jgetStrD msg "role" "" = "assistant" then ocBlockCallIds blocks else []
  else []

/-- The correlation ids of the `toolCall` blocks of an OpenClaw
transcript. -/
def ocCallIds : List JObj → List String
  | [] => []
  | r :: rs => ocRecIds r ++ ocCallIds rs

-- --- src/analyze.py: data model and helpers ---

/-- An event loaded from `events.jsonl` as the analytics engine sees it:
optional fields model `dict.get`; `date` is the date part of the parsed,
UTC-normalized `_ts` timestamp (no embedded analytics function inspects the
time of day).  Field values are strings, as the parsers emit; other JSON
shapes in a hand-edited log are outside the modelled domain. -/
structure AEvent where
  id : String
  date : Date := ⟨2026, 1, 1⟩
  event : Option String := none
  tool : Option String := none
  error : Option String := none
  file : Option String := none
  skill : Option String := none
  project : Option String := none
  source : Option String := none
  deriving DecidableEq, Repr

/-- `is_call_event`: the event represents a tool invocation. -/
def is_call_event (e : AEvent) : Bool :=
  e.event == some "PreToolUse" || e.event == some "ToolUse"

/-- `is_error_event`: a `PostToolUse`/`ToolUse` event carrying a non-null
`error`. -/
def is_error_event (e : AEvent) : Bool :=
  (e.event == some "PostToolUse" || e.event == some "ToolUse") && e.error.isSome

/-- The static tool-name alias table. -/
def TOOL_ALIASES : List (String × String) :=
  [("shell", "Bash"), ("shell_command", "Bash"), ("exec_command", "Bash"),
   ("write_stdin", "Write"), ("update_plan", "TaskUpdate"),
   ("exec", "Bash"), ("process", "Bash"), ("edit", "Edit"), ("write", "Write"),
   ("read", "Read"), ("web_fetch", "WebFetch"), ("web_search", "WebSearch")]

/-- Generic dict lookup (`m[k]` / `m.get(k)`), first binding wins (keys are
unique in every dict built here). -/
def dlookup [DecidableEq κ] (m : List (κ × β)) (k : κ) : Option β :=
  match m with
  | [] => none
  | (k', v) :: rest => if k' = k then some v else dlookup rest k

/-- `TOOL_ALIASES.get(name, name)`. -/
def normalize_tool_name (name : String) : String :=
  (dlookup TOOL_ALIASES name).getD name

/-- `$` in a Python (non-MULTILINE) pattern also matches just before one
trailing newline: strip it before matching the anchored pattern. -/
def stripNl (cs : List Char) : List Char :=
  if cs.getLast? = some '\n' then cs.dropLast else cs

/-- The anchored pattern `^(.+)-(\d+)$` against a newline-stripped character
list, returning group 1.  `.` does not match a newline and `\d` is the ASCII
digits (the ids this repository produces are ASCII).  A decomposition
`p ++ "-" ++ digits` is unique when it exists — the digit suffix must be the
maximal trailing digit run — so greedy matching reduces to: take that run,
check the character before it is a hyphen, and return what precedes. -/
def matchCore (cs1 : List Char) : Option (List Char) :=
  let digits := (cs1.reverse.takeWhile (fun c => c.isDigit)).length
  if digits = 0 then none
  else
    match (cs1.take (cs1.length - digits)).getLast? with
    | some '-' =>
      if (cs1.take (cs1.length - digits)).dropLast ≠ [] ∧
          ¬ (cs1.take (cs1.length - digits)).dropLast.contains '\n' then
        some ((cs1.take (cs1.length - digits)).dropLast)
      else none
    | _ => none

/-- `re.match(r"^(.+)-(\d+)$", s)` and its first group. -/
def sessionIdMatch (cs : List Char) : Option (List Char) :=
  matchCore (stripNl cs)

/-- `extract_session_id`: strip the trailing `-<digits>` sequence-number
suffix; the id is returned unchanged when the regex does not match. -/
def extract_session_id (event_id : String) : String :=
  match sessionIdMatch event_id.toList with
  | some p => String.mk p
  | none => event_id

-- --- Counters, ordered sets, sorting, rounding ---

/-- `Counter[k] += 1`: a CPython dict counter — an existing key keeps its
position, a new key is appended with count 1. -/
def cinc [DecidableEq α] (c : List (α × Nat)) (k : α) : List (α × Nat) :=
  match c with
  | [] => [(k, 1)]
  | (k', n) :: rest => if k' = k then (k', n + 1) :: rest else (k', n) :: cinc rest k

/-- `Counter(iterable)`. -/
def buildCounter [DecidableEq α] (l : List α) : List (α × Nat) :=
  l.foldl cinc []

/-- `counter.get(k, 0)`. -/
def cget [DecidableEq α] (c : List (α × Nat)) (k : α) : Nat :=
  (dlookup c k).getD 0

/-- `set.add`: Python set modelled as an insertion-ordered duplicate-free
list. -/
def oinsert [DecidableEq α] (l : List α) (x : α) : List α :=
  if x ∈ l then l else l ++ [x]

/-- `defaultdict` access-and-update: an existing key is updated in place, a
missing key is appended initialized from the default. -/
def dictUpd [DecidableEq κ] (m : List (κ × β)) (k : κ) (d0 : β) (f : β → β) :
    List (κ × β) :=
  match m with
  | [] => [(k, f d0)]
  | (k', v) :: rest => if k' = k then (k', f v) :: rest else (k', v) :: dictUpd rest k d0 f

/-- Stable insertion for an insertion sort with boolean "may go before". -/
def insOrd (le : β → β → Bool) (x : β) : List β → List β
  | [] => [x]
  | y :: ys => if le x y then x :: y :: ys else y :: insOrd le x ys

/-- Stable sort (Python `sorted`): an element goes before the first later
element it `le`-dominates; ties keep input order. -/
def sortBy (le : β → β → Bool) (l : List β) : List β :=
  l.foldr (insOrd le) []

/-- `sorted(key=rank, reverse=True)`: stable descending sort by a numeric
rank. -/
def sortDescBy (rank : β → Nat) (l : List β) : List β :=
  sortBy (fun a b => rank b ≤ rank a) l

/-- `Counter.most_common(n)`: count-descending, ties by insertion order. -/
def mostCommon [DecidableEq α] (n : Nat) (c : List (α × Nat)) : List (α × Nat) :=
  (sortDescBy (·.2) c).take n

/-- Python `round(num / den)` for naturals with `den > 0`: nearest integer,
halves to even. -/
def bankersRoundQ (num den : Nat) : Int :=
  let f := num / den
  let r := num % den
  if den < 2 * r then (f : Int) + 1
  else if 2 * r < den then (f : Int)
  else if f % 2 = 0 then (f : Int) else (f : Int) + 1

/-- Python `round(a / b, k)` for naturals with `b > 0`, as an exact rational
(the float intermediates of the analysed code are idealized as exact
rationals). -/
def pyRoundDiv (a b : Nat) (k : Nat) : Rat :=
  mkRat (bankersRoundQ (a * 10 ^ k) b) (10 ^ k)

-- --- Session classification ---

def PLANNING_SKILLS : List String :=
  ["brainstorm", "writing-plans", "strategy", "write-plan"]

/-- `s.split(":")[-1]`. -/
def lastColonSeg (s : String) : String :=
  (pySplit s ":").getLastD ""

/-- `classify_session`: fixed-priority decision procedure
planning > debugging > building > reviewing > exploring > other.
Float threshold comparisons (`x / total > 0.10` …) are modelled by exact
cross-multiplied integer comparisons. -/
def classify_session (events : List AEvent) : String :=
  let call_events := events.filter (fun e => is_call_event e)
  let total := call_events.length
  if total = 0 then "other"
  else
    let tool_counts := buildCounter (call_events.map (fun e => e.tool.getD ""))
    let error_count := (events.filter (fun e => is_error_event e)).length
    let plan_mode := (call_events.filter (fun e =>
      e.tool == some "EnterPlanMode" || e.tool == some "ExitPlanMode")).length
    let planning_skill := (call_events.filter (fun e =>
      PLANNING_SKILLS.contains (lastColonSeg (e.skill.getD "")))).length
    let planning_signals := plan_mode + planning_skill
    if planning_signals > 0 ∧ planning_signals * 10 > total then "planning"
    else if total > 0 ∧ error_count ≥ 3 ∧ error_count * 100 > 15 * total then "debugging"
    else
      let bash_count := cget tool_counts "Bash" + cget tool_counts "shell" +
        cget tool_counts "shell_command" + cget tool_counts "exec_command" +
        cget tool_counts "exec"
      if total > 0 ∧ bash_count * 10 > 4 * total ∧ error_count > 3 then "debugging"
      else
        let edit_count := cget tool_counts "Edit" + cget tool_counts "edit"
        let write_count := cget tool_counts "Write" + cget tool_counts "write"
        if (edit_count + write_count) * 4 > total then "building"
        else
          let read_count := cget tool_counts "Read" + cget tool_counts "read"
          if read_count * 2 > total ∧ edit_count + write_count = 0 then "reviewing"
          else
            let glob_count := cget tool_counts "Glob"
            let grep_count := cget tool_counts "Grep"
            if (read_count + glob_count + grep_count) * 100 > 55 * total ∧
                edit_count * 10 < total then "exploring"
            else "other"

-- --- Tool chains: bigrams and retry patterns ---

/-- The ordered tool-name sequence of a session: call-kind events with a
present, truthy tool name. -/
def sessionTools (events : List AEvent) : List String :=
  events.filterMap (fun e =>
    match e.tool with
    | some s => if is_call_event e ∧ s ≠ "" then some s else none
    | none => none)

/-- The sliding window of adjacent pairs. -/
def bigramPairs (tools : List String) : List (String × String) :=
  tools.zip (tools.drop 1)

/-- The bigram counter summed across all sessions (the local `bigrams`
counter of `compute_bigrams`). -/
def bigramCounts (sessions : List (String × List AEvent)) :
    List ((String × String) × Nat) :=
  sessions.foldl (fun c kv => (bigramPairs (sessionTools kv.2)).foldl cinc c) []

structure BigramEntry where
  from_tool : String
  to_tool : String
  count : Nat
  pct : Rat
  deriving DecidableEq, Repr

/-- `compute_bigrams` with its optional `min_count` floor. -/
def compute_bigrams (sessions : List (String × List AEvent))
    (min_count : Option Nat := none) : List BigramEntry :=
  let bigrams := bigramCounts sessions
  let total : Nat := (bigrams.map (·.2)).sum
  let mc := match min_count with
    | some m => m
    | none => if total > 0 then max 3 (total / 200) else 1
  ((mostCommon 50 bigrams).takeWhile (fun bc => mc ≤ bc.2)).map (fun bc =>
    { from_tool := bc.1.1, to_tool := bc.1.2, count := bc.2,
      pct := if total > 0 then pyRoundDiv (bc.2 * 100) total 1 else 0 })

def FILE_TOOLS : List String := ["Read", "Edit", "Write"]

/-- The per-session retry counter: one pass over adjacent event pairs
(`for i in range(len(events) - 1)`). -/
def retryScan : List AEvent → List (String × Nat) → List (String × Nat)
  | c :: n :: rest, acc =>
    let tool := c.tool.getD ""
    let acc :=
      if FILE_TOOLS.contains tool ∧ is_error_event c ∧ is_call_event n ∧
          n.tool == some tool ∧ c.file.isSome ∧ c.file == n.file then
        cinc acc tool
      else acc
    retryScan (n :: rest) acc
  | _, acc => acc

structure RetryStats where
  total_retries : Nat := 0
  max_retries : Nat := 0
  sessions_affected : List String := []
  deriving DecidableEq, Repr

structure RetryEntry where
  tool : String
  avg_retries : Rat
  max_retries : Nat
  sessions_with_retries : Nat
  deriving DecidableEq, Repr

/-- The `retry_stats` defaultdict after processing every session. -/
def retryStatsOf (sessions : List (String × List AEvent)) :
    List (String × RetryStats) :=
  sessions.foldl (fun st kv =>
    (retryScan kv.2 []).foldl (fun st tc =>
      dictUpd st tc.1 {} (fun s =>
        { total_retries := s.total_retries + tc.2,
          max_retries := max s.max_retries tc.2,
          sessions_affected := oinsert s.sessions_affected kv.1 })) st) []

/-- `compute_retry_patterns`: per-tool retry aggregation, sorted by total
retries descending. -/
def compute_retry_patterns (sessions : List (String × List AEvent)) :
    List RetryEntry :=
  (sortDescBy (fun kv => kv.2.total_retries) (retryStatsOf sessions)).filterMap
    (fun kv =>
      let n : Nat := kv.2.sessions_affected.length
      if n > 0 then
        some { tool := kv.1,
               avg_retries := pyRoundDiv kv.2.total_retries n 1,
               max_retries := kv.2.max_retries, sessions_with_retries := n }
      else none)

-- --- Weekly trends ---

structure WeekData where
  events : Nat := 0
  errors : Nat := 0
  sessions : List String := []
  tools : List (String × Nat) := []
  call_events : Nat := 0
  deriving DecidableEq, Repr

/-- Folding one event into its week bucket. -/
def weekUpdate (e : AEvent) (d : WeekData) : WeekData :=
  let d := { d with events := d.events + 1,
                    sessions := oinsert d.sessions (extract_session_id e.id) }
  let d :=
    if is_call_event e then
      { d with call_events := d.call_events + 1,
               tools := cinc d.tools (normalize_tool_name (e.tool.getD "")) }
    else d
  if is_error_event e then { d with errors := d.errors + 1 } else d

/-- The `weekly` defaultdict keyed by `(iso_year, iso_week)`. -/
def buildWeekly (events : List AEvent) : List ((Int × Int) × WeekData) :=
  events.foldl (fun m e => dictUpd m (isocalendar e.date) {} (weekUpdate e)) []

structure WeekEntry where
  week : String
  iso_year : Int
  iso_week : Int
  events : Nat
  sessions : Nat
  error_rate : Rat
  tools : List (String × Nat)
  deriving DecidableEq, Repr

/-- One per-week result entry (note: the dict has no `call_events` and no
`errors` key — only the derived `error_rate`). -/
def mkWeekEntry (k : Int × Int) (d : WeekData) : WeekEntry :=
  { week := toString k.1 ++ "-W" ++ pad2 k.2,
    iso_year := k.1, iso_week := k.2, events := d.events,
    sessions := d.sessions.length,
    error_rate := if d.call_events > 0 then pyRoundDiv d.errors d.call_events 3 else 0,
    tools := mostCommon 10 d.tools }

/-- `compute_weekly_trends`: buckets in ascending `(iso_year, iso_week)`
order.  (The Python signature also takes `sessions`, which the body never
reads.) -/
def compute_weekly_trends (events : List AEvent) : List WeekEntry :=
  (sortBy (fun a b => a.1.1 < b.1.1 || (a.1.1 == b.1.1 && a.1.2 ≤ b.1.2))
      (buildWeekly events)).map (fun kd => mkWeekEntry kd.1 kd.2)

-- --- Project breakdown ---

structure ProjEntry where
  path : String
  events : Nat
  sessions : Nat
  top_tools : List String
  primary_classification : String
  error_rate : Rat
  deriving DecidableEq, Repr

/-- `s.rstrip("/")`. -/
def pyRstripSlash (s : String) : String :=
  String.mk (s.toList.reverse.dropWhile (fun c => c = '/')).reverse

/-- `proj.rstrip("/").rsplit("/", 1)[-1] if "/" in proj else proj`. -/
def pyShortName (proj : String) : String :=
  if proj.toList.contains '/' then
    (pySplit (pyRstripSlash proj) "/").getLastD ""
  else proj

/-- The `project_events` defaultdict. -/
def projGroup (events : List AEvent) : List (String × List AEvent) :=
  events.foldl (fun m e => dictUpd m (e.project.getD "unknown") [] (· ++ [e])) []

/-- The `project_sessions` defaultdict of insertion-ordered session-id sets. -/
def projSessions (events : List AEvent) : List (String × List String) :=
  events.foldl (fun m e =>
    dictUpd m (e.project.getD "unknown") [] (fun s =>
      oinsert s (extract_session_id e.id))) []

/-- The per-project result entry built by the loop body of
`compute_project_breakdown`. -/
def projEntry (sessions : List (String × List AEvent)) (proj : String)
    (evs : List AEvent) (sids : List String) : ProjEntry :=
  let call_count := (evs.filter (fun e => is_call_event e)).length
  let error_count := (evs.filter (fun e => is_error_event e)).length
  let tool_counts := buildCounter
    ((evs.filter (fun e => is_call_event e)).map (fun e => e.tool.getD ""))
  let class_counts := buildCounter
    (sids.filterMap (fun sid => (dlookup sessions sid).map classify_session))
  let primary := match mostCommon 1 class_counts with
    | (c, _) :: _ => c
    | [] => "other"
  { path := proj, events := evs.length, sessions := sids.length,
    top_tools := (mostCommon 5 tool_counts).map (·.1),
    primary_classification := primary,
    error_rate := if call_count > 0 then pyRoundDiv error_count call_count 3 else 0 }

/-- `compute_project_breakdown`: projects in descending event-count order,
keyed by the short display name — a later project with the same short name
overwrites the earlier entry. -/
def compute_project_breakdown (events : List AEvent)
    (sessions : List (String × List AEvent)) : List (String × ProjEntry) :=
  let pe := projGroup events
  let ps := projSessions events
  (sortDescBy (fun kv => kv.2.length) pe).foldl (fun result kv =>
    dictSet result (pyShortName kv.1)
      (projEntry sessions kv.1 kv.2 ((dlookup ps kv.1).getD []))) []

-- ===== Claim theorems =====

/-- C9: for every session whose events contain zero call-kind events (no
`ToolUse` and no `PreToolUse`), `classify_session` returns `"other"`
immediately at the division-by-zero guard, before any ratio rule is
evaluated. -/
theorem classify_session_no_call_events_other (events : List AEvent)
    (h : events.filter (fun e => is_call_event e) = []) :
    classify_session events = "other" := by
  unfold classify_session
  rw [h]
  rfl

def resultOnlySession : List AEvent :=
  [{ id := "s-1", event := some "PostToolUse", tool := some "Read", error := some "oops" },
   { id := "s-2", event := some "PostToolUse", tool := some "Edit" },
   { id := "s-3", event := some "SessionEnd" }]

/-- Witness for C9 at a concrete result-only session. -/
theorem classify_session_no_call_events_other_witness :
    resultOnlySession.filter (fun e => is_call_event e) = [] ∧
    classify_session resultOnlySession = "other" :=
  ⟨by decide, classify_session_no_call_events_other resultOnlySession (by decide)⟩

/-- C3: `classify_session` checks debugging before building: a session with
no planning signals whose error count is at least 3 and exceeds 15% of the
call-event total is classified `"debugging"` even when its Edit/Write call
fraction satisfies the building rule (> 25%). -/
theorem classify_session_debugging_beats_building (events : List AEvent)
    (hplan : ((events.filter (fun e => is_call_event e)).filter (fun e =>
        e.tool == some "EnterPlanMode" || e.tool == some "ExitPlanMode")).length +
      ((events.filter (fun e => is_call_event e)).filter (fun e =>
        PLANNING_SKILLS.contains (lastColonSeg (e.skill.getD "")))).length = 0)
    (herr3 : 3 ≤ (events.filter (fun e => is_error_event e)).length)
    (hrate : (events.filter (fun e => is_error_event e)).length * 100 >
      15 * (events.filter (fun e => is_call_event e)).length)
    (hbuild : (cget (buildCounter ((events.filter (fun e => is_call_event e)).map
          (fun e => e.tool.getD ""))) "Edit" +
        cget (buildCounter ((events.filter (fun e => is_call_event e)).map
          (fun e => e.tool.getD ""))) "edit" +
        (cget (buildCounter ((events.filter (fun e => is_call_event e)).map
          (fun e => e.tool.getD ""))) "Write" +
        cget (buildCounter ((events.filter (fun e => is_call_event e)).map
          (fun e => e.tool.getD ""))) "write")) * 4 >
      (events.filter (fun e => is_call_event e)).length) :
    classify_session events = "debugging" := by
  have h0 : (events.filter (fun e => is_call_event e)).length ≠ 0 := by
    intro h
    rw [List.length_eq_zero] at h
    rw [h] at hbuild
    simp [buildCounter, cget, dlookup] at hbuild
  simp only [classify_session]
  split_ifs with h1 h2 h3 <;> first | rfl | omega

def debugBuildSession : List AEvent :=
  List.replicate 10 { id := "s-1", event := some "PreToolUse", tool := some "Edit" } ++
  List.replicate 3 { id := "s-2", event := some "PostToolUse", tool := some "Edit",
                     error := some "fail" }

/-- Witness for C3: 10 Edit calls (100% edit ratio, satisfying building) and
3 errors (30% error rate) classify as debugging. -/
theorem classify_session_debugging_beats_building_witness :
    classify_session debugBuildSession = "debugging" :=
  classify_session_debugging_beats_building debugBuildSession
    (by decide) (by decide) (by decide) (by decide)

lemma tw_append_all {pr : Char → Bool} {l1 l2 : List Char} (h : ∀ x ∈ l1, pr x = true) :
    (l1 ++ l2).takeWhile pr = l1 ++ l2.takeWhile pr := by
  induction l1 with
  | nil => simp
  | cons a l ih =>
    have ha := h a (by simp)
    have hrest : ∀ x ∈ l, pr x = true := fun x hx => h x (by simp [hx])
    simp [List.takeWhile_cons, ha, ih hrest]

lemma stripNl_of_no_nl {cs : List Char} (h : '\n' ∉ cs) : stripNl cs = cs := by
  unfold stripNl
  split
  · next heq => exact absurd (List.mem_of_mem_getLast? heq) h
  · rfl

lemma split_rev_takeWhile (cs : List Char) (pr : Char → Bool) :
    cs = (cs.reverse.dropWhile pr).reverse ++ (cs.reverse.takeWhile pr).reverse := by
  calc cs = cs.reverse.reverse := (List.reverse_reverse cs).symm
  _ = (cs.reverse.takeWhile pr ++ cs.reverse.dropWhile pr).reverse := by
        rw [List.takeWhile_append_dropWhile]
  _ = (cs.reverse.dropWhile pr).reverse ++ (cs.reverse.takeWhile pr).reverse := by
        rw [List.reverse_append]

lemma take_rev_takeWhile (cs : List Char) (pr : Char → Bool) :
    cs.take (cs.length - (cs.reverse.takeWhile pr).length) =
      (cs.reverse.dropWhile pr).reverse := by
  have hcs := split_rev_takeWhile cs pr
  have hlen := congrArg List.length hcs
  simp only [List.length_append, List.length_reverse] at hlen
  have harel : cs.length - (cs.reverse.takeWhile pr).length =
      (cs.reverse.dropWhile pr).reverse.length := by
    simp only [List.length_reverse]
    omega
  rw [harel]
  have hpre : (cs.reverse.dropWhile pr).reverse <+: cs :=
    ⟨(cs.reverse.takeWhile pr).reverse, hcs.symm⟩
  exact (List.prefix_iff_eq_take.mp hpre).symm

lemma matchCore_decomp (p d : List Char) (hp : p ≠ []) (hnl : ¬ p.contains '\n')
    (hd : d ≠ []) (hdig : ∀ c ∈ d, c.isDigit) :
    matchCore (p ++ '-' :: d) = some p := by
  have hassoc : p ++ '-' :: d = (p ++ ['-']) ++ d := by simp
  have hrev : (p ++ '-' :: d).reverse = d.reverse ++ '-' :: p.reverse := by
    rw [hassoc, List.reverse_append, List.reverse_append]
    simp
  have htw : ((p ++ '-' :: d).reverse.takeWhile (fun c => c.isDigit)) = d.reverse := by
    rw [hrev, tw_append_all (fun x hx => hdig x (List.mem_reverse.mp hx))]
    simp [List.takeWhile_cons]
  have hlen : (p ++ '-' :: d).length - d.length = (p ++ ['-']).length := by
    simp
    omega
  unfold matchCore
  rw [htw, List.length_reverse]
  rw [if_neg (by simp [hd])]
  rw [hlen, hassoc, List.take_left, List.getLast?_concat]
  simp only [List.dropLast_concat]
  rw [if_pos ⟨hp, by simpa using hnl⟩]

lemma sessionIdMatch_some_decomp {cs p : List Char} (hnl : '\n' ∉ cs)
    (h : sessionIdMatch cs = some p) :
    ∃ d, cs = p ++ '-' :: d ∧ p ≠ [] ∧ d ≠ [] ∧ ∀ c ∈ d, c.isDigit := by
  rw [sessionIdMatch, stripNl_of_no_nl hnl] at h
  unfold matchCore at h
  by_cases h0 : (cs.reverse.takeWhile (fun c => c.isDigit)).length = 0
  · rw [if_pos h0] at h
    exact absurd h (by simp)
  · rw [if_neg h0] at h
    rw [take_rev_takeWhile cs (fun c => c.isDigit)] at h
    split at h
    · next heq =>
      split at h
      · next hcond =>
        injection h with h'
        subst h'
        have hWne : (cs.reverse.dropWhile (fun c => c.isDigit)).reverse ≠ [] := by
          intro hcontra
          rw [hcontra] at heq
          simp at heq
        have hWeq : (cs.reverse.dropWhile (fun c => c.isDigit)).reverse =
            (cs.reverse.dropWhile (fun c => c.isDigit)).reverse.dropLast ++ ['-'] := by
          have hback := List.dropLast_append_getLast hWne
          rw [List.getLast?_eq_getLast _ hWne] at heq
          injection heq with heq'
          rw [heq'] at hback
          exact hback.symm
        refine ⟨(cs.reverse.takeWhile (fun c => c.isDigit)).reverse, ?_, hcond.1, ?_, ?_⟩
        · conv_lhs => rw [split_rev_takeWhile cs (fun c => c.isDigit)]
          rw [hWeq]
          simp
        · intro hcontra
          apply h0
          rw [← List.length_reverse, hcontra]
          rfl
        · intro x hx
          exact List.mem_takeWhile_imp (List.mem_reverse.mp hx)
      · exact absurd h (by simp)
    · exact absurd h (by simp)

/-- C4: `extract_session_id` strips exactly the trailing `-<digits>` suffix
at the last hyphen preceding an all-digit suffix — for every id of the shape
`p ++ "-" ++ digits` (with `p` non-empty, newline-free) the result is `p`,
tolerating hyphens inside `p` — and returns the input unchanged when no such
decomposition exists; in particular
`extract_session_id "abc-def-ghi-123" = "abc-def-ghi"` and
`extract_session_id "nodashes" = "nodashes"`. -/
theorem extract_session_id_spec :
    (∀ (p d : List Char), p ≠ [] → '\n' ∉ p → d ≠ [] → (∀ c ∈ d, c.isDigit) →
      extract_session_id (String.mk (p ++ '-' :: d)) = String.mk p)
    ∧ (∀ s : String, '\n' ∉ s.toList →
        (¬ ∃ p d, s.toList = p ++ '-' :: d ∧ p ≠ [] ∧ d ≠ [] ∧ ∀ c ∈ d, c.isDigit) →
        extract_session_id s = s)
    ∧ extract_session_id "abc-def-ghi-123" = "abc-def-ghi"
    ∧ extract_session_id "nodashes" = "nodashes" := by
  refine ⟨?_, ?_, by decide, by decide⟩
  · intro p d hp hnl hd hdig
    have hnl2 : '\n' ∉ p ++ '-' :: d := by
      intro hmem
      rcases List.mem_append.mp hmem with hin | hin
      · exact hnl hin
      · rcases List.mem_cons.mp hin with heq | hin
        · exact absurd heq.symm (by decide)
        · have := hdig _ hin
          simp at this
    have hm : sessionIdMatch (String.mk (p ++ '-' :: d)).toList = some p := by
      show sessionIdMatch (p ++ '-' :: d) = some p
      rw [sessionIdMatch, stripNl_of_no_nl hnl2]
      exact matchCore_decomp p d hp (by simpa using hnl) hd hdig
    unfold extract_session_id
    rw [hm]
  · intro s hnl hnone
    cases hm : sessionIdMatch s.toList with
    | none => unfold extract_session_id; rw [hm]
    | some p =>
      obtain ⟨d, hdecomp, hp, hd, hdig⟩ := sessionIdMatch_some_decomp hnl hm
      exact absurd ⟨p, d, hdecomp, hp, hd, hdig⟩ hnone

/-- Witness for C4 at concrete inputs `"a-1"` and `"b"`. -/
theorem extract_session_id_spec_witness :
    extract_session_id (String.mk (['a'] ++ '-' :: ['1'])) = String.mk ['a'] ∧
    extract_session_id "b" = "b" :=
  ⟨extract_session_id_spec.1 ['a'] ['1'] (by decide) (by decide) (by decide) (by decide),
   extract_session_id_spec.2.1 "b" (by decide) (by
      rintro ⟨p, d, hpd, hp, hd, -⟩
      have hlen := congrArg List.length hpd
      have hple : 1 ≤ p.length := List.length_pos.mpr hp
      have hdle : 1 ≤ d.length := List.length_pos.mpr hd
      simp [List.length_append] at hlen
      omega)⟩

lemma sessionTools_filter_call (evs : List AEvent) :
    sessionTools (evs.filter (fun e => is_call_event e)) = sessionTools evs := by
  induction evs with
  | nil => rfl
  | cons e es ih =>
    by_cases h : is_call_event e
    · simp only [sessionTools, List.filter_cons, h, if_true, List.filterMap_cons] at ih ⊢
      cases e.tool <;> simp_all
    · simp only [sessionTools, List.filter_cons, h, if_false, List.filterMap_cons,
        Bool.false_eq_true] at ih ⊢
      cases htool : e.tool <;> simp_all

lemma bigram_fold_filter_call (sessions : List (String × List AEvent)) :
    ∀ acc, List.foldl (fun c kv => (bigramPairs (sessionTools kv.2)).foldl cinc c) acc
        (sessions.map (fun kv => (kv.1, kv.2.filter (fun e => is_call_event e)))) =
      List.foldl (fun c kv => (bigramPairs (sessionTools kv.2)).foldl cinc c) acc sessions := by
  induction sessions with
  | nil => intro acc; rfl
  | cons kv rest ih =>
    intro acc
    simp only [List.map_cons, List.foldl_cons, sessionTools_filter_call]
    exact ih _

lemma bigramCounts_filter_call (sessions : List (String × List AEvent)) :
    bigramCounts (sessions.map (fun kv => (kv.1, kv.2.filter (fun e => is_call_event e)))) =
      bigramCounts sessions :=
  bigram_fold_filter_call sessions []

/-- The spec's alternating session:
PreToolUse(Read), PostToolUse(Read), PreToolUse(Edit), PostToolUse(Edit). -/
def alternatingSession : List AEvent :=
  [{ id := "s-1", event := some "PreToolUse", tool := some "Read" },
   { id := "s-2", event := some "PostToolUse", tool := some "Read" },
   { id := "s-3", event := some "PreToolUse", tool := some "Edit" },
   { id := "s-4", event := some "PostToolUse", tool := some "Edit" }]

/-- C5: bigrams are built only from call-kind events — restricting every
session to its call events does not change the bigram counter — and the
alternating Read/Edit session yields exactly the single bigram Read→Edit
(no Read→Read or Edit→Edit self-loop), which `compute_bigrams` reports as
its only entry once the floor admits it. -/
theorem compute_bigrams_call_events_only (sid : String)
    (sessions : List (String × List AEvent)) :
    bigramCounts (sessions.map (fun kv => (kv.1, kv.2.filter (fun e => is_call_event e)))) =
      bigramCounts sessions ∧
    bigramCounts [(sid, alternatingSession)] = [(("Read", "Edit"), 1)] ∧
    compute_bigrams [(sid, alternatingSession)] (some 1) =
      [{ from_tool := "Read", to_tool := "Edit", count := 1, pct := 100 }] := by
  refine ⟨bigramCounts_filter_call sessions, rfl, ?_⟩
  have hb : bigramCounts [(sid, alternatingSession)] = [(("Read", "Edit"), 1)] := rfl
  simp only [compute_bigrams, hb]
  rfl

/-- C6: `compute_retry_patterns` counts a retry for the two-event window
(curr, next) exactly when curr is a file-tool (Read/Edit/Write) call-result
with non-null error and non-null file, and next is a call event on the same
tool and the same file; any other combination — different file, tool outside
the file-tool set, no error — produces no retry entry. -/
theorem compute_retry_patterns_pair_characterization (sid : String) (c n : AEvent) :
    compute_retry_patterns [(sid, [c, n])] =
      (if FILE_TOOLS.contains (c.tool.getD "") ∧ is_error_event c ∧ is_call_event n ∧
          n.tool == some (c.tool.getD "") ∧ c.file.isSome ∧ c.file == n.file then
        [{ tool := c.tool.getD "", avg_retries := 1, max_retries := 1,
           sessions_with_retries := 1 }]
      else []) := by
  have hscan : retryScan [c, n] [] =
      (if FILE_TOOLS.contains (c.tool.getD "") ∧ is_error_event c ∧ is_call_event n ∧
          n.tool == some (c.tool.getD "") ∧ c.file.isSome ∧ c.file == n.file then
        [(c.tool.getD "", 1)]
      else []) := by
    by_cases h : FILE_TOOLS.contains (c.tool.getD "") ∧ is_error_event c ∧ is_call_event n ∧
        n.tool == some (c.tool.getD "") ∧ c.file.isSome ∧ c.file == n.file
    · rw [if_pos h]; simp only [retryScan]; rw [if_pos h]; rfl
    · rw [if_neg h]; simp only [retryScan]; rw [if_neg h]
  simp only [compute_retry_patterns, retryStatsOf, List.foldl_cons, List.foldl_nil, hscan]
  by_cases h : FILE_TOOLS.contains (c.tool.getD "") ∧ is_error_event c ∧ is_call_event n ∧
      n.tool == some (c.tool.getD "") ∧ c.file.isSome ∧ c.file == n.file
  · rw [if_pos h, if_pos h]
    simp [dictUpd, sortDescBy, sortBy, insOrd, oinsert, pyRoundDiv, bankersRoundQ]
    decide
  · rw [if_neg h, if_neg h]; rfl

lemma dictUpd_dictUpd_same {β : Type} (m : List (String × β)) (k : String) (d0 : β)
    (f g : β → β) :
    dictUpd (dictUpd m k d0 f) k d0 g = dictUpd m k d0 (fun v => g (f v)) := by
  induction m with
  | nil => simp [dictUpd]
  | cons kv rest ih =>
    by_cases h : kv.1 = k
    · simp [dictUpd, h]
    · simp [dictUpd, h, ih]

lemma foldl_dictUpd_const_key {β : Type} (g : β → AEvent → β) (key : AEvent → String)
    (P : String) (d0 : β) (E : List AEvent) :
    ∀ (m : List (String × β)), E ≠ [] → (∀ e ∈ E, key e = P) →
      E.foldl (fun m e => dictUpd m (key e) d0 (fun v => g v e)) m =
        dictUpd m P d0 (fun v => E.foldl g v) := by
  induction E with
  | nil => intro m h _; exact absurd rfl h
  | cons e E' ih =>
    intro m _ hkey
    have hk := hkey e (by simp)
    by_cases hE' : E' = []
    · subst hE'
      show dictUpd m (key e) d0 (fun v => g v e) = _
      rw [hk]
      rfl
    · simp only [List.foldl_cons, hk]
      rw [ih _ hE' (fun x hx => hkey x (by simp [hx]))]
      rw [dictUpd_dictUpd_same]

lemma foldl_append_singleton {α : Type} (E : List α) :
    ∀ v : List α, E.foldl (fun v e => v ++ [e]) v = v ++ E := by
  induction E with
  | nil => intro v; simp
  | cons e E' ih => intro v; simp [ih]

lemma projGroup_two (E1 E2 : List AEvent) (A B : String)
    (h1 : ∀ e ∈ E1, e.project = some A) (h2 : ∀ e ∈ E2, e.project = some B)
    (hAB : A ≠ B) (hE1 : E1 ≠ []) (hE2 : E2 ≠ []) :
    projGroup (E1 ++ E2) = [(A, E1), (B, E2)] := by
  unfold projGroup
  rw [List.foldl_append]
  rw [foldl_dictUpd_const_key (fun v e => v ++ [e]) (fun e => e.project.getD "unknown") A []
    E1 [] hE1 (fun e he => by simp [h1 e he])]
  rw [foldl_dictUpd_const_key (fun v e => v ++ [e]) (fun e => e.project.getD "unknown") B []
    E2 _ hE2 (fun e he => by simp [h2 e he])]
  simp only [foldl_append_singleton]
  simp [dictUpd, hAB, Ne.symm hAB]

lemma projSessions_two (E1 E2 : List AEvent) (A B : String)
    (h1 : ∀ e ∈ E1, e.project = some A) (h2 : ∀ e ∈ E2, e.project = some B)
    (hAB : A ≠ B) (hE1 : E1 ≠ []) (hE2 : E2 ≠ []) :
    projSessions (E1 ++ E2) =
      [(A, E1.foldl (fun s e => oinsert s (extract_session_id e.id)) []),
       (B, E2.foldl (fun s e => oinsert s (extract_session_id e.id)) [])] := by
  unfold projSessions
  rw [List.foldl_append]
  rw [foldl_dictUpd_const_key (fun s e => oinsert s (extract_session_id e.id))
    (fun e => e.project.getD "unknown") A [] E1 [] hE1 (fun e he => by simp [h1 e he])]
  rw [foldl_dictUpd_const_key (fun s e => oinsert s (extract_session_id e.id))
    (fun e => e.project.getD "unknown") B [] E2 _ hE2 (fun e he => by simp [h2 e he])]
  simp [dictUpd, hAB, Ne.symm hAB]

/-- C10: when two distinct project paths share their final path segment, the
project with more events is written into the result dict first (descending
event-count order) and the project with fewer events — iterated later —
overwrites it: the result holds a single entry under the shared short name,
carrying only the smaller project's path and metrics. -/
theorem compute_project_breakdown_shared_segment (E1 E2 : List AEvent) (A B : String)
    (sessions : List (String × List AEvent))
    (h1 : ∀ e ∈ E1, e.project = some A) (h2 : ∀ e ∈ E2, e.project = some B)
    (hAB : A ≠ B) (hshort : pyShortName A = pyShortName B)
    (hlen : E2.length < E1.length) (hE2 : E2 ≠ []) :
    compute_project_breakdown (E1 ++ E2) sessions =
      [(pyShortName B,
        projEntry sessions B E2
          (E2.foldl (fun s e => oinsert s (extract_session_id e.id)) []))] := by
  have hE1 : E1 ≠ [] := by
    intro h
    rw [h] at hlen
    simp at hlen
  unfold compute_project_breakdown
  rw [projGroup_two E1 E2 A B h1 h2 hAB hE1 hE2,
      projSessions_two E1 E2 A B h1 h2 hAB hE1 hE2]
  have hsort : sortDescBy (fun kv => kv.2.length) [(A, E1), (B, E2)] = [(A, E1), (B, E2)] := by
    simp [sortDescBy, sortBy, insOrd, Nat.le_of_lt hlen]
  simp only [hsort]
  simp only [List.foldl_cons, List.foldl_nil]
  simp [dictSet, dlookup, hshort, hAB, Ne.symm hAB]

def collE1 : List AEvent :=
  [{ id := "a-1", event := some "ToolUse", tool := some "Read", project := some "/x/app" },
   { id := "a-2", event := some "ToolUse", tool := some "Read", project := some "/x/app" }]

def collE2 : List AEvent :=
  [{ id := "b-1", event := some "ToolUse", tool := some "Edit", project := some "/y/app" }]

/-- Witness for C10: `/x/app` (2 events) and `/y/app` (1 event) collide on
the short name `app`; only `/y/app`'s entry survives. -/
theorem compute_project_breakdown_shared_segment_witness :
    compute_project_breakdown (collE1 ++ collE2) [] =
      [(pyShortName "/y/app",
        projEntry [] "/y/app" collE2
          (collE2.foldl (fun s e => oinsert s (extract_session_id e.id)) []))] :=
  compute_project_breakdown_shared_segment collE1 collE2 "/x/app" "/y/app" []
    (by decide) (by decide) (by decide) (by decide) (by decide) (by decide)

-- --- Weekly-trend correspondence: grouped fold vs filter-based aggregation ---

/-- Declarative per-bucket aggregate: what one week's `WeekData` holds for
the sublist of events falling in that bucket. -/
def weekAggregate (b : List AEvent) : WeekData :=
  { events := b.length,
    errors := (b.filter (fun e => is_error_event e)).length,
    sessions := b.foldl (fun s e => oinsert s (extract_session_id e.id)) [],
    tools := buildCounter ((b.filter (fun e => is_call_event e)).map
      (fun e => normalize_tool_name (e.tool.getD ""))),
    call_events := (b.filter (fun e => is_call_event e)).length }

lemma weekAggregate_append (b : List AEvent) (e : AEvent) :
    weekAggregate (b ++ [e]) = weekUpdate e (weekAggregate b) := by
  unfold weekAggregate weekUpdate
  by_cases hc : is_call_event e <;> by_cases he : is_error_event e <;>
    simp [hc, he, List.filter_append, buildCounter, List.foldl_append, List.length_append]

lemma dlookup_dictUpd {κ β : Type} [DecidableEq κ] (m : List (κ × β)) (k0 k : κ)
    (d0 : β) (f : β → β) :
    dlookup (dictUpd m k0 d0 f) k =
      if k = k0 then some (f ((dlookup m k0).getD d0)) else dlookup m k := by
  induction m with
  | nil =>
    by_cases h : k = k0
    · subst h; simp [dictUpd, dlookup]
    · simp [dictUpd, dlookup, h, Ne.symm h]
  | cons kv rest ih =>
    by_cases h1 : kv.1 = k0 <;> by_cases h2 : k = k0 <;>
      simp_all [dictUpd, dlookup] <;> simp_all [eq_comm]

lemma dlookup_some_mem {κ β : Type} [DecidableEq κ] {m : List (κ × β)} {k : κ} {v : β}
    (h : dlookup m k = some v) : (k, v) ∈ m := by
  induction m with
  | nil => simp [dlookup] at h
  | cons kv rest ih =>
    obtain ⟨a, b⟩ := kv
    by_cases hk : a = k
    · subst hk
      simp [dlookup] at h
      subst h
      exact List.mem_cons_self _ _
    · simp only [dlookup] at h
      rw [if_neg hk] at h
      exact List.mem_cons_of_mem _ (ih h)

lemma mem_of_nodup_dlookup {κ β : Type} [DecidableEq κ] {m : List (κ × β)}
    (hnd : (m.map Prod.fst).Nodup) {k : κ} {v : β} (hm : (k, v) ∈ m) :
    dlookup m k = some v := by
  induction m with
  | nil => simp at hm
  | cons kv rest ih =>
    simp only [List.map_cons, List.nodup_cons] at hnd
    rcases List.mem_cons.mp hm with heq | hmem
    · rw [← heq]
      simp [dlookup]
    · have hne : kv.1 ≠ k := by
        intro hc
        exact hnd.1 (hc ▸ (List.mem_map.mpr ⟨(k, v), hmem, rfl⟩))
      simp [dlookup, hne, ih hnd.2 hmem]

lemma mem_insOrd {β : Type} (le : β → β → Bool) (y : β) (l : List β) (x : β) :
    x ∈ insOrd le y l ↔ x = y ∨ x ∈ l := by
  induction l with
  | nil => simp [insOrd]
  | cons a l ih =>
    unfold insOrd
    split
    · simp
    · simp [ih]
      tauto

lemma mem_sortBy {β : Type} (le : β → β → Bool) (l : List β) (x : β) :
    x ∈ sortBy le l ↔ x ∈ l := by
  induction l with
  | nil => simp [sortBy]
  | cons a l ih =>
    show x ∈ insOrd le a (sortBy le l) ↔ _
    rw [mem_insOrd]
    simp [ih]

lemma dictUpd_keys {κ β : Type} [DecidableEq κ] (m : List (κ × β)) (k : κ) (d0 : β)
    (f : β → β) :
    (dictUpd m k d0 f).map Prod.fst =
      if k ∈ m.map Prod.fst then m.map Prod.fst else m.map Prod.fst ++ [k] := by
  induction m with
  | nil => simp [dictUpd]
  | cons kv rest ih =>
    by_cases h : kv.1 = k
    · simp [dictUpd, h]
    · simp only [dictUpd, if_neg h, List.map_cons, ih]
      by_cases hmem : k ∈ rest.map Prod.fst <;>
        simp [hmem, Ne.symm h, h]

lemma buildWeekly_keys_nodup (events : List AEvent) :
    ((buildWeekly events).map Prod.fst).Nodup := by
  unfold buildWeekly
  induction events using List.reverseRecOn with
  | nil => simp
  | append_singleton es e ih =>
    rw [List.foldl_append]
    simp only [List.foldl_cons, List.foldl_nil]
    rw [dictUpd_keys]
    split
    · exact ih
    · next hmem => simp [List.nodup_append, ih, hmem]

lemma buildWeekly_lookup (events : List AEvent) (k : Int × Int) :
    dlookup (buildWeekly events) k =
      (if (events.filter (fun e => isocalendar e.date = k)).isEmpty then none
       else some (weekAggregate (events.filter (fun e => isocalendar e.date = k)))) := by
  induction events using List.reverseRecOn with
  | nil => simp [buildWeekly, dlookup]
  | append_singleton es e ih =>
    have hstep : buildWeekly (es ++ [e]) =
        dictUpd (buildWeekly es) (isocalendar e.date) {} (weekUpdate e) := by
      unfold buildWeekly
      rw [List.foldl_append]
      rfl
    rw [hstep, dlookup_dictUpd, List.filter_append]
    by_cases hk : k = isocalendar e.date
    · rw [if_pos hk]
      subst hk
      rw [ih]
      have hfe : List.filter (fun x => decide (isocalendar x.date = isocalendar e.date)) [e]
          = [e] := by simp
      rw [hfe]
      by_cases hempty :
          (es.filter (fun x => isocalendar x.date = isocalendar e.date)).isEmpty
      · rw [if_pos hempty]
        have hnil : es.filter (fun x => decide (isocalendar x.date = isocalendar e.date))
            = [] := List.isEmpty_iff.mp hempty
        rw [hnil]
        simp only [List.nil_append, Option.getD_none]
        rw [if_neg (by simp)]
        have hWA : weekAggregate [e] = weekUpdate e ({} : WeekData) := by
          have h0 := weekAggregate_append [] e
          simpa using h0
        rw [hWA]
      · rw [if_neg hempty]
        simp only [Option.getD_some]
        rw [if_neg (by simp [List.isEmpty_iff, List.append_eq_nil])]
        rw [weekAggregate_append]
    · rw [if_neg hk, ih]
      have hfe : List.filter (fun x => decide (isocalendar x.date = k)) [e] = [] := by
        simp [Ne.symm hk]
      rw [hfe, List.append_nil]

lemma oinsert_nodup {l : List String} {x : String} (h : l.Nodup) : (oinsert l x).Nodup := by
  unfold oinsert
  split
  · exact h
  · next hmem => simp [List.nodup_append, h, hmem]

lemma oinsert_toFinset (l : List String) (x : String) :
    (oinsert l x).toFinset = insert x l.toFinset := by
  unfold oinsert
  split
  · next hmem => rw [Finset.insert_eq_self.mpr (List.mem_toFinset.mpr hmem)]
  · simp [List.toFinset_append, Finset.union_comm, Finset.insert_eq]

lemma foldl_oinsert_spec (l : List String) :
    ∀ acc : List String, acc.Nodup →
      (l.foldl oinsert acc).Nodup ∧
      (l.foldl oinsert acc).toFinset = acc.toFinset ∪ l.toFinset := by
  induction l with
  | nil =>
    intro acc h
    simpa using h
  | cons a l ih =>
    intro acc h
    obtain ⟨hn, hf⟩ := ih (oinsert acc a) (oinsert_nodup h)
    refine ⟨hn, ?_⟩
    rw [List.foldl_cons] at *
    rw [hf, oinsert_toFinset]
    simp [Finset.insert_union, Finset.union_insert]

lemma foldl_oinsert_card (l : List String) :
    (l.foldl oinsert []).length = l.toFinset.card := by
  obtain ⟨hn, hf⟩ := foldl_oinsert_spec l [] (by simp)
  rw [← List.toFinset_card_of_nodup hn, hf]
  simp

def ev1229 : AEvent :=
  { id := "s-1", date := ⟨2025, 12, 29⟩, event := some "ToolUse", tool := some "Read" }

def ev1220 : AEvent :=
  { id := "t-1", date := ⟨2025, 12, 20⟩, event := some "ToolUse", tool := some "Edit" }

/-- C7 counterexample: the code (CPython's `date.isocalendar`) places an
event timestamped 2025-12-20 in bucket `2025-W51`, not `2025-W52` as the
claim asserts (ISO week 52 of 2025 runs Dec 22–28). -/
theorem compute_weekly_trends_w52_counterexample :
    (compute_weekly_trends [ev1220]).map (fun w => w.week) = ["2025-W51"] ∧
    (compute_weekly_trends [ev1220]).map (fun w => w.week) ≠ ["2025-W52"] := by
  constructor <;> decide

/-- C7 (amended): `compute_weekly_trends` groups every event by the ISO
calendar `(year, week)` of its timestamp — every event's ISO key appears as
the key of some returned entry; an event at 2025-12-29 lands in `2026-W01`
and an event at 2025-12-20 in `2025-W51`, two distinct buckets. -/
theorem compute_weekly_trends_iso_grouping :
    (∀ (events : List AEvent) (e : AEvent), e ∈ events →
        ∃ w ∈ compute_weekly_trends events, (w.iso_year, w.iso_week) = isocalendar e.date) ∧
    (compute_weekly_trends [ev1229, ev1220]).map (fun w => (w.week, w.iso_year, w.iso_week)) =
      [("2025-W51", 2025, 51), ("2026-W01", 2026, 1)] := by
  constructor
  · intro events e he
    have hne : ¬ (events.filter (fun x => isocalendar x.date = isocalendar e.date)).isEmpty := by
      intro hemp
      have hmem : e ∈ events.filter (fun x => isocalendar x.date = isocalendar e.date) :=
        List.mem_filter.mpr ⟨he, by simp⟩
      rw [List.isEmpty_iff.mp hemp] at hmem
      simp at hmem
    have hlk := buildWeekly_lookup events (isocalendar e.date)
    rw [if_neg hne] at hlk
    have hmem := dlookup_some_mem hlk
    refine ⟨mkWeekEntry (isocalendar e.date)
      (weekAggregate (events.filter (fun x => isocalendar x.date = isocalendar e.date))),
      ?_, rfl⟩
    unfold compute_weekly_trends
    exact List.mem_map.mpr ⟨_, (mem_sortBy _ _ _).mpr hmem, rfl⟩
  · decide

/-- Witness for the universally quantified half of the C7 theorem, at a
concrete one-event list. -/
theorem compute_weekly_trends_iso_grouping_witness :
    ∃ w ∈ compute_weekly_trends [ev1229], (w.iso_year, w.iso_week) = isocalendar ev1229.date :=
  compute_weekly_trends_iso_grouping.1 [ev1229] ev1229 (by decide)

/-- C8 (amended): every per-week entry reports its bucket's total event
count, distinct-session count, error rate (errors over call-events rounded
to 3 places, zero when the bucket has no call-events) and top-10 normalized
tool names; the call-event count and error count are only inputs to the
rate, not part of the entry. -/
theorem compute_weekly_trends_entry_fields (events : List AEvent) (en : WeekEntry)
    (hen : en ∈ compute_weekly_trends events) :
    events.filter (fun e => isocalendar e.date = (en.iso_year, en.iso_week)) ≠ [] ∧
    en.events =
      (events.filter (fun e => isocalendar e.date = (en.iso_year, en.iso_week))).length ∧
    en.sessions =
      ((events.filter (fun e => isocalendar e.date = (en.iso_year, en.iso_week))).map
        (fun e => extract_session_id e.id)).toFinset.card ∧
    en.error_rate =
      (if 0 < ((events.filter (fun e => isocalendar e.date = (en.iso_year, en.iso_week))).filter
          (fun e => is_call_event e)).length then
        pyRoundDiv
          ((events.filter (fun e => isocalendar e.date = (en.iso_year, en.iso_week))).filter
            (fun e => is_error_event e)).length
          ((events.filter (fun e => isocalendar e.date = (en.iso_year, en.iso_week))).filter
            (fun e => is_call_event e)).length 3
      else 0) ∧
    en.tools = mostCommon 10 (buildCounter
      (((events.filter (fun e => isocalendar e.date = (en.iso_year, en.iso_week))).filter
          (fun e => is_call_event e)).map
        (fun e => normalize_tool_name (e.tool.getD "")))) ∧
    en.week = toString en.iso_year ++ "-W" ++ pad2 en.iso_week := by
  unfold compute_weekly_trends at hen
  obtain ⟨kd, hkd, rfl⟩ := List.mem_map.mp hen
  have hkd' : (kd.1, kd.2) ∈ buildWeekly events := by
    simpa using (mem_sortBy _ _ _).mp hkd
  have hlk := mem_of_nodup_dlookup (buildWeekly_keys_nodup events) hkd'
  rw [buildWeekly_lookup] at hlk
  have hkey : ((mkWeekEntry kd.1 kd.2).iso_year, (mkWeekEntry kd.1 kd.2).iso_week) = kd.1 := rfl
  simp only [hkey]
  by_cases hemp : (events.filter (fun e => isocalendar e.date = kd.1)).isEmpty
  · rw [if_pos hemp] at hlk
    exact absurd hlk (by simp)
  · rw [if_neg hemp] at hlk
    injection hlk with hlk'
    refine ⟨by simpa [List.isEmpty_iff] using hemp, ?_, ?_, ?_, ?_, rfl⟩
    · rw [← hlk']
      rfl
    · rw [← hlk']
      show (weekAggregate _).sessions.length = _
      unfold weekAggregate
      simp only []
      rw [← List.foldl_map (fun e : AEvent => extract_session_id e.id) (fun s x => oinsert s x)]
      exact foldl_oinsert_card _
    · rw [← hlk']
      rfl
    · rw [← hlk']
      rfl

def c8CallA : List AEvent :=
  (List.range 11).map (fun i =>
    { id := "s-1", date := ⟨2025, 12, 20⟩, event := some "ToolUse",
      tool := some ("T" ++ toString i) })

def c8xA : List AEvent :=
  c8CallA ++ [{ id := "s-1", date := ⟨2025, 12, 20⟩, event := some "PostToolUse",
                tool := some "T0" }]

def c8xB : List AEvent :=
  c8CallA.take 10 ++
    [{ id := "s-1", date := ⟨2025, 12, 20⟩, event := some "PostToolUse", tool := some "T0" },
     { id := "s-1", date := ⟨2025, 12, 20⟩, event := some "PostToolUse", tool := some "T1" }]

set_option maxHeartbeats 4000000 in
/-- C8 counterexample: two event lists whose single bucket has different
call-event counts (11 vs 10; both have 12 events, one session, no errors,
identical top-10 tools) produce identical `compute_weekly_trends` output, so
the per-week entry does not report the bucket's call-event count (the entry
dict has no such key — only the derived `error_rate`). -/
theorem weekly_entry_hides_call_count_counterexample :
    compute_weekly_trends c8xA = compute_weekly_trends c8xB ∧
    (c8xA.filter (fun e => is_call_event e)).length ≠
      (c8xB.filter (fun e => is_call_event e)).length := by
  constructor <;> decide

def c8wEntry : WeekEntry :=
  { week := "2025-W51", iso_year := 2025, iso_week := 51, events := 1, sessions := 1,
    error_rate := 0, tools := [("Edit", 1)] }

/-- Witness for C8 at the one-event list `[ev1220]`. -/
theorem compute_weekly_trends_entry_fields_witness :
    [ev1220].filter (fun e => isocalendar e.date = (c8wEntry.iso_year, c8wEntry.iso_week)) ≠ [] ∧
    c8wEntry.events =
      ([ev1220].filter (fun e => isocalendar e.date = (c8wEntry.iso_year, c8wEntry.iso_week))).length ∧
    c8wEntry.sessions =
      (([ev1220].filter (fun e => isocalendar e.date = (c8wEntry.iso_year, c8wEntry.iso_week))).map
        (fun e => extract_session_id e.id)).toFinset.card ∧
    c8wEntry.error_rate =
      (if 0 < (([ev1220].filter (fun e => isocalendar e.date = (c8wEntry.iso_year, c8wEntry.iso_week))).filter
          (fun e => is_call_event e)).length then
        pyRoundDiv
          (([ev1220].filter (fun e => isocalendar e.date = (c8wEntry.iso_year, c8wEntry.iso_week))).filter
            (fun e => is_error_event e)).length
          (([ev1220].filter (fun e => isocalendar e.date = (c8wEntry.iso_year, c8wEntry.iso_week))).filter
            (fun e => is_call_event e)).length 3
      else 0) ∧
    c8wEntry.tools = mostCommon 10 (buildCounter
      ((([ev1220].filter (fun e => isocalendar e.date = (c8wEntry.iso_year, c8wEntry.iso_week))).filter
          (fun e => is_call_event e)).map
        (fun e => normalize_tool_name (e.tool.getD "")))) ∧
    c8wEntry.week = toString c8wEntry.iso_year ++ "-W" ++ pad2 c8wEntry.iso_week := by
  have hmem : c8wEntry ∈ compute_weekly_trends [ev1220] := by decide
  exact compute_weekly_trends_entry_fields [ev1220] c8wEntry hmem

-- --- Parser timestamp handling (C1) ---

/-- A record whose `timestamp` field is absent, text, or an epoch-ms
number — the shapes the claim quantifies over. -/
def tsOk (r : JObj) : Bool :=
  match jget r "timestamp" with
  | none => true
  | some (.str _) => true
  | some (.num _) => true
  | _ => false

lemma ccConvTs_str {r : JObj} (h : tsOk r = true) :
    ∃ s, ccConvTs (jgetD r "timestamp" (.str "")) = JValue.str s := by
  unfold tsOk at h
  unfold ccConvTs jgetD
  split at h
  · next heq => rw [heq]; exact ⟨"", rfl⟩
  · next s heq => rw [heq]; exact ⟨s, rfl⟩
  · next n heq => rw [heq]; exact ⟨epochMsToIso n, rfl⟩
  · simp at h

/-- Invariant: every pending and every emitted event carries a text
timestamp. -/
def allTsStr (st : ParseState) : Prop :=
  (∀ kv ∈ st.pending, ∃ s, kv.2.ts = JValue.str s) ∧
  (∀ e ∈ st.out, ∃ s, e.ts = JValue.str s)

lemma mem_dictSet {α : Type} {d : List (String × α)} {k : String} {v : α} {kv : String × α}
    (h : kv ∈ dictSet d k v) : kv = (k, v) ∨ kv ∈ d := by
  induction d with
  | nil =>
    unfold dictSet at h
    exact Or.inl (by simpa using h)
  | cons kv' rest ih =>
    unfold dictSet at h
    split at h
    · rcases List.mem_cons.mp h with heq | hmem
      · exact Or.inl heq
      · exact Or.inr (List.mem_cons_of_mem _ hmem)
    · rcases List.mem_cons.mp h with heq | hmem
      · exact Or.inr (heq ▸ List.mem_cons_self _ _)
      · rcases ih hmem with heq | hmem'
        · exact Or.inl heq
        · exact Or.inr (List.mem_cons_of_mem _ hmem')

lemma dictPop_snd_sublist {α : Type} (d : List (String × α)) (k : String) :
    List.Sublist (dictPop d k).2 d := by
  induction d with
  | nil => simp [dictPop]
  | cons kv rest ih =>
    unfold dictPop
    split
    · simp
    · simp only []
      exact List.Sublist.cons₂ _ ih

lemma dictPop_fst_mem {α : Type} {d : List (String × α)} {k : String} {v : α}
    (h : (dictPop d k).1 = some v) : (k, v) ∈ d := by
  induction d with
  | nil => simp [dictPop] at h
  | cons kv rest ih =>
    unfold dictPop at h
    split at h
    · next heq =>
      simp only [] at h
      injection h with h'
      subst h'
      exact heq ▸ List.mem_cons_self _ _
    · simp only [] at h
      exact List.mem_cons_of_mem _ (ih h)

lemma ccApplyResult_ts (b : JObj) (ev : PEvent) : (ccApplyResult b ev).ts = ev.ts := by
  unfold ccApplyResult
  split <;> rfl

lemma ccCallBlock_allTsStr {ts : JValue} {model : String} {st : ParseState} {block : JValue}
    (hts : ∃ s, ts = JValue.str s) (h : allTsStr st) :
    allTsStr (ccCallBlock ts model st block) := by
  unfold ccCallBlock
  split
  · split
    · refine ⟨?_, h.2⟩
      intro kv hkv
      rcases mem_dictSet hkv with heq | hmem
      · rw [heq]
        exact hts
      · exact h.1 kv hmem
    · exact h
  · exact h

lemma ccResultBlock_allTsStr {st : ParseState} {block : JValue} (h : allTsStr st) :
    allTsStr (ccResultBlock st block) := by
  unfold ccResultBlock
  split
  · next b =>
    split
    · split
      · exact h
      · next ev pending' heq =>
        have hev : ∃ s, ev.ts = JValue.str s := by
          have hfst : (dictPop st.pending (jgetStrD b "tool_use_id" "")).1 = some ev := by
            rw [heq]
          exact h.1 _ (dictPop_fst_mem hfst)
        constructor
        · intro kv hkv
          have hsnd : kv ∈ (dictPop st.pending (jgetStrD b "tool_use_id" "")).2 := by
            rw [heq]
            exact hkv
          exact h.1 kv ((dictPop_snd_sublist _ _).subset hsnd)
        · intro e he
          rcases List.mem_append.mp he with hold | hnew
          · exact h.2 e hold
          · rw [List.mem_singleton.mp hnew, ccApplyResult_ts]
            exact hev
    · exact h
  · exact h

lemma foldl_preserve {σ α : Type} {P : σ → Prop} {f : σ → α → σ}
    (hf : ∀ s a, P s → P (f s a)) : ∀ (l : List α) (s : σ), P s → P (l.foldl f s) := by
  intro l
  induction l with
  | nil => intro s hs; exact hs
  | cons a l ih =>
    intro s hs
    exact ih _ (hf s a hs)

lemma ccContext_allTsStr {stem : String} {st : ParseState} {r : JObj} (h : allTsStr st) :
    allTsStr (ccContext stem st r) := by
  simp only [ccContext]
  split <;> split <;> exact h

lemma ccStep_allTsStr {stem : String} {st : ParseState} {r : JObj}
    (hr : tsOk r = true) (h : allTsStr st) : allTsStr (ccStep stem st r) := by
  have hctx : allTsStr (ccContext stem st r) := ccContext_allTsStr h
  simp only [ccStep]
  split
  · exact hctx
  · split
    · exact hctx
    · split
      · exact foldl_preserve (fun s b hs => ccCallBlock_allTsStr (ccConvTs_str hr) hs) _ _ hctx
      · split
        · exact foldl_preserve (fun s b hs => ccResultBlock_allTsStr hs) _ _ hctx
        · exact hctx

/-- C1 (amended): `parse_claude_code` converts epoch-millisecond numeric
timestamps to UTC ISO-8601 text at the parser boundary — on any transcript
whose record timestamps are absent, text, or numeric, every event it emits
has a text `ts`.  (`parse_codex` and `parse_openclaw` do not convert; see
the counterexample.) -/
theorem parse_claude_code_ts_text (stem : String) (records : List JObj)
    (h : ∀ r ∈ records, tsOk r = true) :
    ∀ e ∈ parse_claude_code stem records, ∃ s, e.ts = JValue.str s := by
  have hfold : allTsStr (records.foldl (ccStep stem) {}) := by
    have hgen : ∀ (l : List JObj), (∀ r ∈ l, tsOk r = true) → ∀ (s : ParseState),
        allTsStr s → allTsStr (l.foldl (ccStep stem) s) := by
      intro l
      induction l with
      | nil => intro _ s hs; exact hs
      | cons a l ih =>
        intro hl s hs
        exact ih (fun r hr => hl r (by simp [hr])) _ (ccStep_allTsStr (hl a (by simp)) hs)
    exact hgen records h {} ⟨by simp, by simp⟩
  intro e he
  unfold parse_claude_code at he
  rcases List.mem_append.mp he with hout | hpend
  · exact hfold.2 e hout
  · obtain ⟨kv, hkv, rfl⟩ := List.mem_map.mp hpend
    exact hfold.1 kv hkv

def cxNumRec : JObj :=
  [("timestamp", .num 1700000000000), ("type", .str "response_item"),
   ("payload", .obj [("type", .str "function_call"), ("name", .str "shell"),
                     ("call_id", .str "c1")])]

def ocNumRec : JObj :=
  [("type", .str "message"), ("timestamp", .num 1700000000000),
   ("message", .obj [("role", .str "assistant"), ("content", .arr [
     .obj [("type", .str "toolCall"), ("name", .str "exec"), ("id", .str "x1")]])])]

/-- C1 counterexample: a transcript record carrying an epoch-millisecond
numeric timestamp passes through `parse_codex` and `parse_openclaw`
unconverted — the emitted unified event's `ts` is the number, not text. -/
theorem parser_numeric_ts_counterexample :
    (parse_codex "r" [cxNumRec]).map (fun e => e.ts) = [JValue.num 1700000000000] ∧
    (parse_openclaw "s" [ocNumRec]).map (fun e => e.ts) = [JValue.num 1700000000000] :=
  ⟨rfl, rfl⟩

def ccNumRec : JObj :=
  [("type", .str "assistant"), ("sessionId", .str "s"), ("timestamp", .num 1700000000000),
   ("message", .obj [("content", .arr [
     .obj [("type", .str "tool_use"), ("name", .str "Edit"), ("id", .str "t1")]])])]

/-- Witness for C1 at a Claude Code record with a numeric timestamp. -/
theorem parse_claude_code_ts_text_witness :
    (∀ r ∈ [ccNumRec], tsOk r = true) ∧
    (∀ e ∈ parse_claude_code "stem" [ccNumRec], ∃ s, e.ts = JValue.str s) :=
  ⟨by decide, parse_claude_code_ts_text "stem" [ccNumRec] (by decide)⟩


lemma dictSet_not_mem {α : Type} {d : List (String × α)} {k : String} (v : α)
    (h : k ∉ d.map Prod.fst) : dictSet d k v = d ++ [(k, v)] := by
  induction d with
  | nil => rfl
  | cons kv rest ih =>
    simp only [List.map_cons, List.mem_cons] at h
    push_neg at h
    unfold dictSet
    rw [if_neg (fun hc => h.1 hc.symm)]
    rw [ih h.2]
    rfl

lemma dictPop_some_len {α : Type} {d : List (String × α)} {k : String} {v : α}
    (h : (dictPop d k).1 = some v) : (dictPop d k).2.length + 1 = d.length := by
  induction d with
  | nil => simp [dictPop] at h
  | cons kv rest ih =>
    unfold dictPop at h ⊢
    split at h
    · next hk =>
      rw [if_pos hk]
      simp
    · next hk =>
      simp only [] at h
      rw [if_neg hk]
      have := ih h
      simp only [List.length_cons]
      omega

/-- Count invariant: emitted plus pending events equal the call counter, and
the pending keys together with the not-yet-seen call ids are pairwise
distinct. -/
def CountInv (rest : List String) (st : ParseState) : Prop :=
  st.out.length + st.pending.length = st.seq ∧
  (st.pending.map Prod.fst ++ rest).Nodup



lemma ccBlockCallIds_cons (b : JValue) (bs : List JValue) :
    ccBlockCallIds (b :: bs) = ccBlockCallIds [b] ++ ccBlockCallIds bs := by
  unfold ccBlockCallIds
  rw [List.filterMap_cons, List.filterMap_cons]
  cases hfb : (match b with
    | JValue.obj o => if jIsType o "tool_use" then some (jgetStrD o "id" "") else none
    | _ => (none : Option String)) <;> simp [hfb]

lemma ccCallBlock_count {ts : JValue} {model : String} {st : ParseState} {b : JValue}
    {rest : List String} (h : CountInv (ccBlockCallIds [b] ++ rest) st) :
    CountInv rest (ccCallBlock ts model st b) ∧
    (ccCallBlock ts model st b).seq = st.seq + (ccBlockCallIds [b]).length := by
  unfold ccCallBlock
  split
  · next o =>
    split
    · next htype =>
      have hone : ccBlockCallIds [JValue.obj o] = [jgetStrD o "id" ""] := by
        simp [ccBlockCallIds, htype]
      rw [hone] at h
      simp only [List.singleton_append] at h
      have hid_not : jgetStrD o "id" "" ∉ st.pending.map Prod.fst := by
        rcases List.nodup_append.mp h.2 with ⟨-, -, hdisj⟩
        intro hmem
        exact hdisj hmem (by simp)
      constructor
      · constructor
        · show st.out.length + (dictSet st.pending (jgetStrD o "id" "") _).length = st.seq + 1
          rw [dictSet_not_mem _ hid_not]
          have h1 := h.1
          simp only [List.length_append, List.length_singleton]
          omega
        · show ((dictSet st.pending (jgetStrD o "id" "") _).map Prod.fst ++ rest).Nodup
          rw [dictSet_not_mem _ hid_not, List.map_append]
          have h2 := h.2
          simp only [List.append_assoc, List.map_cons, List.map_nil, List.singleton_append]
          simpa using h2
      · rw [hone]
        rfl
    · next htype =>
      have hzero : ccBlockCallIds [JValue.obj o] = [] := by
        simp [ccBlockCallIds, htype]
      rw [hzero] at h
      rw [hzero]
      exact ⟨h, rfl⟩
  · next hb =>
    have hzero : ccBlockCallIds [b] = [] := by
      unfold ccBlockCallIds
      rw [List.filterMap_cons]
      cases b <;> simp_all
    rw [hzero] at h
    rw [hzero]
    exact ⟨h, rfl⟩

lemma ccCallBlocks_count {ts : JValue} {model : String} :
    ∀ (blocks : List JValue) (st : ParseState) (rest : List String),
    CountInv (ccBlockCallIds blocks ++ rest) st →
    CountInv rest (blocks.foldl (ccCallBlock ts model) st) ∧
    (blocks.foldl (ccCallBlock ts model) st).seq
      = st.seq + (ccBlockCallIds blocks).length := by
  intro blocks
  induction blocks with
  | nil =>
    intro st rest h
    simp only [ccBlockCallIds, List.filterMap_nil, List.nil_append] at h
    simp only [List.foldl_nil, ccBlockCallIds, List.filterMap_nil, List.length_nil]
    exact ⟨h, rfl⟩
  | cons b bs ih =>
    intro st rest h
    rw [ccBlockCallIds_cons, List.append_assoc] at h
    obtain ⟨h1, h2⟩ := ccCallBlock_count h
    obtain ⟨h3, h4⟩ := ih _ _ h1
    rw [List.foldl_cons]
    refine ⟨h3, ?_⟩
    have hlen : (ccBlockCallIds (b :: bs)).length
        = (ccBlockCallIds [b]).length + (ccBlockCallIds bs).length := by
      rw [ccBlockCallIds_cons b bs, List.length_append]
    rw [h4, h2, hlen]
    omega

lemma ccResultBlock_count {st : ParseState} {rest : List String} (b : JValue)
    (h : CountInv rest st) :
    CountInv rest (ccResultBlock st b) ∧ (ccResultBlock st b).seq = st.seq := by
  unfold ccResultBlock
  split
  · next o =>
    split
    · next htype =>
      split
      · exact ⟨h, rfl⟩
      · next ev pending' heq =>
        refine ⟨⟨?_, ?_⟩, rfl⟩
        · show (st.out ++ _).length + pending'.length = st.seq
          have hv : (dictPop st.pending (jgetStrD o "tool_use_id" "")).1 = some ev := by
            rw [heq]
          have hp : (dictPop st.pending (jgetStrD o "tool_use_id" "")).2 = pending' := by
            rw [heq]
          have hlen := dictPop_some_len hv
          rw [hp] at hlen
          have h1 := h.1
          simp only [List.length_append, List.length_singleton]
          omega
        · show (pending'.map Prod.fst ++ rest).Nodup
          have hsub : List.Sublist pending' st.pending := by
            have hs := dictPop_snd_sublist st.pending (jgetStrD o "tool_use_id" "")
            rwa [heq] at hs
          exact h.2.sublist
            (List.Sublist.append_right (List.Sublist.map Prod.fst hsub) rest)
    · exact ⟨h, rfl⟩
  · exact ⟨h, rfl⟩

lemma ccContext_fields (stem : String) (st : ParseState) (r : JObj) :
    (ccContext stem st r).seq = st.seq ∧ (ccContext stem st r).pending = st.pending ∧
    (ccContext stem st r).out = st.out := by
  simp only [ccContext]
  split_ifs <;> simp

lemma ccStep_count (stem : String) (st : ParseState) (r : JObj) (rest : List String)
    (h : CountInv (ccRecIds r ++ rest) st) :
    CountInv rest (ccStep stem st r) ∧
    (ccStep stem st r).seq = st.seq + (ccRecIds r).length := by
  obtain ⟨hseq, hpend, hout⟩ := ccContext_fields stem st r
  have hctx : ∀ L, CountInv L st → CountInv L (ccContext stem st r) := by
    intro L hL
    constructor
    · rw [hout, hpend, hseq]
      exact hL.1
    · rw [hpend]
      exact hL.2
  simp only [ccRecIds] at h
  simp only [ccStep]
  split
  · next heq =>
    simp only [heq, List.nil_append] at h
    have hid : ccRecIds r = [] := by
      simp [ccRecIds, heq]
    rw [hid]
    exact ⟨hctx _ h, by simp [hseq]⟩
  · next msg heq =>
    simp only [heq] at h
    split
    · next heq2 =>
      simp only [heq2, List.nil_append] at h
      have hid : ccRecIds r = [] := by
        simp [ccRecIds, heq, heq2]
      rw [hid]
      exact ⟨hctx _ h, by simp [hseq]⟩
    · next blocks heq2 =>
      simp only [heq2] at h
      split_ifs with h1 h2
      · rw [if_pos h1] at h
        obtain ⟨c1, c2⟩ := ccCallBlocks_count blocks (ccContext stem st r) rest (hctx _ h)
        have hid : ccRecIds r = ccBlockCallIds blocks := by
          simp [ccRecIds, heq, heq2, h1]
        rw [hid]
        exact ⟨c1, by rw [c2, hseq]⟩
      · rw [if_neg h1, List.nil_append] at h
        have hid : ccRecIds r = [] := by
          simp [ccRecIds, heq, heq2, h1]
        rw [hid]
        have hpres := foldl_preserve
          (fun s b hs => ⟨(ccResultBlock_count b hs.1).1,
            by rw [(ccResultBlock_count b hs.1).2]; exact hs.2⟩ :
            ∀ (s : ParseState) (b : JValue),
              (CountInv rest s ∧ s.seq = st.seq) →
              (CountInv rest (ccResultBlock s b) ∧ (ccResultBlock s b).seq = st.seq))
          blocks (ccContext stem st r) ⟨hctx _ h, hseq⟩
        exact ⟨hpres.1, by rw [hpres.2]; simp⟩
      · rw [if_neg h1, List.nil_append] at h
        have hid : ccRecIds r = [] := by
          simp [ccRecIds, heq, heq2, h1]
        rw [hid]
        exact ⟨hctx _ h, by simp [hseq]⟩

lemma ccFold_count (stem : String) :
    ∀ (records : List JObj) (st : ParseState) (rest : List String),
    CountInv (ccCallIds records ++ rest) st →
    CountInv rest (records.foldl (ccStep stem) st) ∧
    (records.foldl (ccStep stem) st).seq = st.seq + (ccCallIds records).length := by
  intro records
  induction records with
  | nil =>
    intro st rest h
    simp only [ccCallIds, List.nil_append] at h
    simp only [List.foldl_nil, ccCallIds, List.length_nil]
    exact ⟨h, rfl⟩
  | cons r rs ih =>
    intro st rest h
    have hcons : ccCallIds (r :: rs) = ccRecIds r ++ ccCallIds rs := rfl
    rw [hcons, List.append_assoc] at h
    obtain ⟨h1, h2⟩ := ccStep_count stem st r _ h
    obtain ⟨h3, h4⟩ := ih _ _ h1
    rw [List.foldl_cons]
    refine ⟨h3, ?_⟩
    rw [h4, h2, hcons, List.length_append]
    omega

lemma parse_claude_code_length (stem : String) (records : List JObj)
    (h : (ccCallIds records).Nodup) :
    (parse_claude_code stem records).length = (ccCallIds records).length := by
  have h0 : CountInv (ccCallIds records ++ []) ({} : ParseState) := by
    constructor
    · rfl
    · simpa using h
  obtain ⟨h1, h2⟩ := ccFold_count stem records {} [] h0
  simp only [parse_claude_code, List.length_append, List.length_map]
  rw [h1.1, h2]
  simp

lemma cxStep_count (st : ParseState) (r : JObj) (rest : List String)
    (h : CountInv (cxRecIds r ++ rest) st) :
    CountInv rest (cxStep st r) ∧
    (cxStep st r).seq = st.seq + (cxRecIds r).length := by
  simp only [cxRecIds] at h
  simp only [cxStep]
  split
  · next heq =>
    simp only [heq, List.nil_append] at h
    have hid : cxRecIds r = [] := by
      simp [cxRecIds, heq]
    rw [hid]
    exact ⟨h, by simp⟩
  · next payload heq =>
    simp only [heq] at h
    by_cases h1 : jgetStrD r "type" "" = "session_meta"
    · rw [if_pos h1]
      have hid : cxRecIds r = [] := by
        simp [cxRecIds, heq, h1]
      rw [hid]
      simp only [h1] at h
      exact ⟨⟨h.1, h.2⟩, by simp⟩
    · rw [if_neg h1]
      by_cases h2 : jgetStrD r "type" "" = "response_item"
      · rw [if_neg (by simpa using h2)]
        by_cases h3 : jgetStrD payload "type" "" = "function_call"
        · rw [if_pos h3]
          have hid : cxRecIds r = [jgetStrD payload "call_id" ""] := by
            simp [cxRecIds, heq, h2, h3]
          rw [hid]
          simp only [h2, h3, true_and, if_true, List.singleton_append] at h
          have hid_not : jgetStrD payload "call_id" "" ∉ st.pending.map Prod.fst := by
            rcases List.nodup_append.mp h.2 with ⟨-, -, hdisj⟩
            intro hmem
            exact hdisj hmem (by simp)
          refine ⟨⟨?_, ?_⟩, by simp⟩
          · show st.out.length
              + (dictSet st.pending (jgetStrD payload "call_id" "") _).length
              = st.seq + 1
            rw [dictSet_not_mem _ hid_not]
            have h1' := h.1
            simp only [List.length_append, List.length_singleton]
            omega
          · show ((dictSet st.pending (jgetStrD payload "call_id" "") _).map Prod.fst
              ++ rest).Nodup
            rw [dictSet_not_mem _ hid_not, List.map_append]
            have h2' := h.2
            simp only [List.append_assoc, List.map_cons, List.map_nil,
              List.singleton_append]
            simpa using h2'
        · rw [if_neg h3]
          have hid : cxRecIds r = [] := by
            simp [cxRecIds, heq, h3]
          rw [hid]
          simp only [h3, and_false, if_false, List.nil_append] at h
          by_cases h4 : jgetStrD payload "type" "" = "function_call_output"
          · rw [if_pos h4]
            split
            · exact ⟨h, by simp⟩
            · next ev pending' heq2 =>
              refine ⟨⟨?_, ?_⟩, by simp⟩
              · show (st.out ++ _).length + pending'.length = st.seq
                have hv : (dictPop st.pending (jgetStrD payload "call_id" "")).1
                    = some ev := by
                  rw [heq2]
                have hp : (dictPop st.pending (jgetStrD payload "call_id" "")).2
                    = pending' := by
                  rw [heq2]
                have hlen := dictPop_some_len hv
                rw [hp] at hlen
                have h1' := h.1
                simp only [List.length_append, List.length_singleton]
                omega
              · show (pending'.map Prod.fst ++ rest).Nodup
                have hsub : List.Sublist pending' st.pending := by
                  have hs := dictPop_snd_sublist st.pending
                    (jgetStrD payload "call_id" "")
                  rwa [heq2] at hs
                exact h.2.sublist
                  (List.Sublist.append_right (List.Sublist.map Prod.fst hsub) rest)
          · rw [if_neg h4]
            exact ⟨h, by simp⟩
      · rw [if_pos h2]
        have hid : cxRecIds r = [] := by
          simp [cxRecIds, heq, h2]
        rw [hid]
        simp only [h2, false_and, if_false, List.nil_append] at h
        exact ⟨h, by simp⟩

lemma cxFold_count :
    ∀ (records : List JObj) (st : ParseState) (rest : List String),
    CountInv (cxCallIds records ++ rest) st →
    CountInv rest (records.foldl cxStep st) ∧
    (records.foldl cxStep st).seq = st.seq + (cxCallIds records).length := by
  intro records
  induction records with
  | nil =>
    intro st rest h
    simp only [cxCallIds, List.nil_append] at h
    simp only [List.foldl_nil, cxCallIds, List.length_nil]
    exact ⟨h, rfl⟩
  | cons r rs ih =>
    intro st rest h
    have hcons : cxCallIds (r :: rs) = cxRecIds r ++ cxCallIds rs := rfl
    rw [hcons, List.append_assoc] at h
    obtain ⟨h1, h2⟩ := cxStep_count st r _ h
    obtain ⟨h3, h4⟩ := ih _ _ h1
    rw [List.foldl_cons]
    refine ⟨h3, ?_⟩
    rw [h4, h2, hcons, List.length_append]
    omega

lemma parse_codex_length (stem : String) (records : List JObj)
    (h : (cxCallIds records).Nodup) :
    (parse_codex stem records).length = (cxCallIds records).length := by
  have h0 : CountInv (cxCallIds records ++ []) ({ session_id := stem } : ParseState) := by
    constructor
    · rfl
    · simpa using h
  obtain ⟨h1, h2⟩ := cxFold_count records { session_id := stem } [] h0
  simp only [parse_codex, List.length_append, List.length_map]
  rw [h1.1, h2]
  simp

lemma ocBlockCallIds_cons (b : JValue) (bs : List JValue) :
    ocBlockCallIds (b :: bs) = ocBlockCallIds [b] ++ ocBlockCallIds bs := by
  unfold ocBlockCallIds
  rw [List.filterMap_cons, List.filterMap_cons]
  cases hfb : (match b with
    | JValue.obj o => if jIsType o "toolCall" then some (jgetStrD o "id" "") else none
    | _ => (none : Option String)) <;> simp [hfb]

lemma ocCallBlock_count {ts : JValue} {st : ParseState} {b : JValue}
    {rest : List String} (h : CountInv (ocBlockCallIds [b] ++ rest) st) :
    CountInv rest (ocCallBlock ts st b) ∧
    (ocCallBlock ts st b).seq = st.seq + (ocBlockCallIds [b]).length := by
  unfold ocCallBlock
  split
  · next o =>
    split
    · next htype =>
      have hone : ocBlockCallIds [JValue.obj o] = [jgetStrD o "id" ""] := by
        simp [ocBlockCallIds, htype]
      rw [hone] at h
      simp only [List.singleton_append] at h
      have hid_not : jgetStrD o "id" "" ∉ st.pending.map Prod.fst := by
        rcases List.nodup_append.mp h.2 with ⟨-, -, hdisj⟩
        intro hmem
        exact hdisj hmem (by simp)
      constructor
      · constructor
        · show st.out.length + (dictSet st.pending (jgetStrD o "id" "") _).length
            = st.seq + 1
          rw [dictSet_not_mem _ hid_not]
          have h1 := h.1
          simp only [List.length_append, List.length_singleton]
          omega
        · show ((dictSet st.pending (jgetStrD o "id" "") _).map Prod.fst ++ rest).Nodup
          rw [dictSet_not_mem _ hid_not, List.map_append]
          have h2 := h.2
          simp only [List.append_assoc, List.map_cons, List.map_nil,
            List.singleton_append]
          simpa using h2
      · rw [hone]
        rfl
    · next htype =>
      have hzero : ocBlockCallIds [JValue.obj o] = [] := by
        simp [ocBlockCallIds, htype]
      rw [hzero] at h
      rw [hzero]
      exact ⟨h, rfl⟩
  · next hb =>
    have hzero : ocBlockCallIds [b] = [] := by
      unfold ocBlockCallIds
      rw [List.filterMap_cons]
      cases b <;> simp_all
    rw [hzero] at h
    rw [hzero]
    exact ⟨h, rfl⟩

lemma ocCallBlocks_count {ts : JValue} :
    ∀ (blocks : List JValue) (st : ParseState) (rest : List String),
    CountInv (ocBlockCallIds blocks ++ rest) st →
    CountInv rest (blocks.foldl (ocCallBlock ts) st) ∧
    (blocks.foldl (ocCallBlock ts) st).seq
      = st.seq + (ocBlockCallIds blocks).length := by
  intro blocks
  induction blocks with
  | nil =>
    intro st rest h
    simp only [ocBlockCallIds, List.filterMap_nil, List.nil_append] at h
    simp only [List.foldl_nil, ocBlockCallIds, List.filterMap_nil, List.length_nil]
    exact ⟨h, rfl⟩
  | cons b bs ih =>
    intro st rest h
    rw [ocBlockCallIds_cons, List.append_assoc] at h
    obtain ⟨h1, h2⟩ := ocCallBlock_count h
    obtain ⟨h3, h4⟩ := ih _ _ h1
    rw [List.foldl_cons]
    refine ⟨h3, ?_⟩
    have hlen : (ocBlockCallIds (b :: bs)).length
        = (ocBlockCallIds [b]).length + (ocBlockCallIds bs).length := by
      rw [ocBlockCallIds_cons b bs, List.length_append]
    rw [h4, h2, hlen]
    omega

lemma ocStep_count (st : ParseState) (r : JObj) (rest : List String)
    (h : CountInv (ocRecIds r ++ rest) st) :
    CountInv rest (ocStep st r) ∧
    (ocStep st r).seq = st.seq + (ocRecIds r).length := by
  simp only [ocRecIds] at h
  simp only [ocStep]
  by_cases h1 : jgetStrD r "type" "" = "session"
  · rw [if_pos h1]
    simp only [h1] at h
    have hid : ocRecIds r = [] := by
      simp [ocRecIds, h1]
    rw [hid]
    exact ⟨⟨h.1, h.2⟩, by simp⟩
  · rw [if_neg h1]
    by_cases h2 : jgetStrD r "type" "" = "model_change"
    · rw [if_pos h2]
      simp only [h2] at h
      have hid : ocRecIds r = [] := by
        simp [ocRecIds, h2]
      rw [hid]
      exact ⟨⟨h.1, h.2⟩, by simp⟩
    · rw [if_neg h2]
      by_cases h3 : jgetStrD r "type" "" = "message"
      · rw [if_neg (by simpa using h3)]
        simp only [h3, if_true] at h
        split
        · next heq =>
          simp only [heq, List.nil_append] at h
          have hid : ocRecIds r = [] := by
            simp [ocRecIds, h3, heq]
          rw [hid]
          exact ⟨h, by simp⟩
        · next msg heq =>
          simp only [heq] at h
          split
          · next heq2 =>
            simp only [heq2, List.nil_append] at h
            have hid : ocRecIds r = [] := by
              simp [ocRecIds, h3, heq, heq2]
            rw [hid]
            exact ⟨h, by simp⟩
          · next blocks heq2 =>
            simp only [heq2] at h
            by_cases h4 : jgetStrD msg "role" "" = "assistant"
            · rw [if_pos h4]
              simp only [h4, if_true] at h
              have hid : ocRecIds r = ocBlockCallIds blocks := by
                simp [ocRecIds, h3, heq, heq2, h4]
              rw [hid]
              exact ocCallBlocks_count blocks st rest h
            · rw [if_neg h4]
              simp only [h4, if_false, List.nil_append] at h
              have hid : ocRecIds r = [] := by
                simp [ocRecIds, h3, heq, heq2, h4]
              rw [hid]
              by_cases h5 : jgetStrD msg "role" "" = "toolResult"
              · rw [if_pos h5]
                split
                · exact ⟨h, by simp⟩
                · next ev pending' heq3 =>
                  refine ⟨⟨?_, ?_⟩, by simp⟩
                  · show (st.out ++ _).length + pending'.length = st.seq
                    have hv : (dictPop st.pending (jgetStrD msg "toolCallId" "")).1
                        = some ev := by
                      rw [heq3]
                    have hp : (dictPop st.pending (jgetStrD msg "toolCallId" "")).2
                        = pending' := by
                      rw [heq3]
                    have hlen := dictPop_some_len hv
                    rw [hp] at hlen
                    have h1' := h.1
                    simp only [List.length_append, List.length_singleton]
                    omega
                  · show (pending'.map Prod.fst ++ rest).Nodup
                    have hsub : List.Sublist pending' st.pending := by
                      have hs := dictPop_snd_sublist st.pending
                        (jgetStrD msg "toolCallId" "")
                      rwa [heq3] at hs
                    exact h.2.sublist
                      (List.Sublist.append_right (List.Sublist.map Prod.fst hsub) rest)
              · rw [if_neg h5]
                exact ⟨h, by simp⟩
      · rw [if_pos h3]
        simp only [h3, if_false, List.nil_append] at h
        have hid : ocRecIds r = [] := by
          simp [ocRecIds, h3]
        rw [hid]
        exact ⟨h, by simp⟩

lemma ocFold_count :
    ∀ (records : List JObj) (st : ParseState) (rest : List String),
    CountInv (ocCallIds records ++ rest) st →
    CountInv rest (records.foldl ocStep st) ∧
    (records.foldl ocStep st).seq = st.seq + (ocCallIds records).length := by
  intro records
  induction records with
  | nil =>
    intro st rest h
    simp only [ocCallIds, List.nil_append] at h
    simp only [List.foldl_nil, ocCallIds, List.length_nil]
    exact ⟨h, rfl⟩
  | cons r rs ih =>
    intro st rest h
    have hcons : ocCallIds (r :: rs) = ocRecIds r ++ ocCallIds rs := rfl
    rw [hcons, List.append_assoc] at h
    obtain ⟨h1, h2⟩ := ocStep_count st r _ h
    obtain ⟨h3, h4⟩ := ih _ _ h1
    rw [List.foldl_cons]
    refine ⟨h3, ?_⟩
    rw [h4, h2, hcons, List.length_append]
    omega

lemma parse_openclaw_length (stem : String) (records : List JObj)
    (h : (ocCallIds records).Nodup) :
    (parse_openclaw stem records).length = (ocCallIds records).length := by
  have h0 : CountInv (ocCallIds records ++ []) ({ session_id := stem } : ParseState) := by
    constructor
    · rfl
    · simpa using h
  obtain ⟨h1, h2⟩ := ocFold_count records { session_id := stem } [] h0
  simp only [parse_openclaw, List.length_append, List.length_map]
  rw [h1.1, h2]
  simp

/-- No pending call event carries an error: results are the only source of a
non-null `error`, and a resolved call leaves the pending table. -/
def PendNoErr (st : ParseState) : Prop :=
  ∀ kv ∈ st.pending, (Prod.snd kv).error = (none : Option String)

lemma ccCallBlock_noErr {ts : JValue} {model : String} {st : ParseState} {b : JValue}
    (h : PendNoErr st) : PendNoErr (ccCallBlock ts model st b) := by
  unfold ccCallBlock
  split
  · next o =>
    split
    · next htype =>
      intro kv hkv
      rcases mem_dictSet hkv with heqkv | hmem
      · rw [heqkv]
      · exact h kv hmem
    · exact h
  · exact h

lemma ccResultBlock_noErr {st : ParseState} {b : JValue}
    (h : PendNoErr st) : PendNoErr (ccResultBlock st b) := by
  unfold ccResultBlock
  split
  · next o =>
    split
    · next htype =>
      split
      · exact h
      · next ev pending' heq =>
        intro kv hkv
        have hsub : List.Sublist pending' st.pending := by
          have hs := dictPop_snd_sublist st.pending (jgetStrD o "tool_use_id" "")
          rwa [heq] at hs
        exact h kv (hsub.subset hkv)
    · exact h
  · exact h

lemma ccStep_noErr (stem : String) (st : ParseState) (r : JObj) (h : PendNoErr st) :
    PendNoErr (ccStep stem st r) := by
  have hctx : PendNoErr (ccContext stem st r) := by
    intro kv hkv
    rw [(ccContext_fields stem st r).2.1] at hkv
    exact h kv hkv
  simp only [ccStep]
  split
  · exact hctx
  · split
    · exact hctx
    · by_cases h1 : jgetStrD r "type" "" = "assistant"
      · rw [if_pos h1]
        exact foldl_preserve (fun s b hs => ccCallBlock_noErr hs) _ _ hctx
      · rw [if_neg h1]
        by_cases h2 : jgetStrD r "type" "" = "user"
        · rw [if_pos h2]
          exact foldl_preserve (fun s b hs => ccResultBlock_noErr hs) _ _ hctx
        · rw [if_neg h2]
          exact hctx

lemma cxStep_noErr (st : ParseState) (r : JObj) (h : PendNoErr st) :
    PendNoErr (cxStep st r) := by
  simp only [cxStep]
  split
  · exact h
  · next payload heq =>
    by_cases h1 : jgetStrD r "type" "" = "session_meta"
    · rw [if_pos h1]
      intro kv hkv
      exact h kv hkv
    · rw [if_neg h1]
      by_cases h2 : jgetStrD r "type" "" = "response_item"
      · rw [if_neg (by simpa using h2)]
        by_cases h3 : jgetStrD payload "type" "" = "function_call"
        · rw [if_pos h3]
          intro kv hkv
          rcases mem_dictSet hkv with heqkv | hmem
          · rw [heqkv]
          · exact h kv hmem
        · rw [if_neg h3]
          by_cases h4 : jgetStrD payload "type" "" = "function_call_output"
          · rw [if_pos h4]
            split
            · exact h
            · next ev pending' heq2 =>
              intro kv hkv
              have hsub : List.Sublist pending' st.pending := by
                have hs := dictPop_snd_sublist st.pending (jgetStrD payload "call_id" "")
                rwa [heq2] at hs
              exact h kv (hsub.subset hkv)
          · rw [if_neg h4]
            exact h
      · rw [if_pos h2]
        exact h

lemma ocCallBlock_noErr {ts : JValue} {st : ParseState} {b : JValue}
    (h : PendNoErr st) : PendNoErr (ocCallBlock ts st b) := by
  unfold ocCallBlock
  split
  · next o =>
    split
    · next htype =>
      intro kv hkv
      rcases mem_dictSet hkv with heqkv | hmem
      · rw [heqkv]
      · exact h kv hmem
    · exact h
  · exact h

lemma ocStep_noErr (st : ParseState) (r : JObj) (h : PendNoErr st) :
    PendNoErr (ocStep st r) := by
  simp only [ocStep]
  by_cases h1 : jgetStrD r "type" "" = "session"
  · rw [if_pos h1]
    intro kv hkv
    exact h kv hkv
  · rw [if_neg h1]
    by_cases h2 : jgetStrD r "type" "" = "model_change"
    · rw [if_pos h2]
      intro kv hkv
      exact h kv hkv
    · rw [if_neg h2]
      by_cases h3 : jgetStrD r "type" "" = "message"
      · rw [if_neg (by simpa using h3)]
        split
        · exact h
        · next msg heq =>
          split
          · exact h
          · next blocks heq2 =>
            by_cases h4 : jgetStrD msg "role" "" = "assistant"
            · rw [if_pos h4]
              exact foldl_preserve (fun s b hs => ocCallBlock_noErr hs) _ _ h
            · rw [if_neg h4]
              by_cases h5 : jgetStrD msg "role" "" = "toolResult"
              · rw [if_pos h5]
                split
                · exact h
                · next ev pending' heq3 =>
                  intro kv hkv
                  have hsub : List.Sublist pending' st.pending := by
                    have hs := dictPop_snd_sublist st.pending
                      (jgetStrD msg "toolCallId" "")
                    rwa [heq3] at hs
                  exact h kv (hsub.subset hkv)
              · rw [if_neg h5]
                exact h
      · rw [if_pos h3]
        exact h

lemma parse_claude_code_flush (stem : String) (records : List JObj) :
    ∀ ev ∈ (records.foldl (ccStep stem) ({} : ParseState)).pending.map Prod.snd,
      ev ∈ parse_claude_code stem records ∧ ev.error = none := by
  intro ev hev
  have hne : PendNoErr (records.foldl (ccStep stem) ({} : ParseState)) :=
    foldl_preserve (fun s r hs => ccStep_noErr stem s r hs) records {}
      (fun kv hkv => absurd hkv (List.not_mem_nil kv))
  rcases List.mem_map.mp hev with ⟨kv, hkv, hkve⟩
  constructor
  · simp only [parse_claude_code]
    exact List.mem_append_right _ hev
  · rw [← hkve]
    exact hne kv hkv

lemma parse_codex_flush (stem : String) (records : List JObj) :
    ∀ ev ∈ (records.foldl cxStep ({ session_id := stem } : ParseState)).pending.map Prod.snd,
      ev ∈ parse_codex stem records ∧ ev.error = none := by
  intro ev hev
  have hne : PendNoErr (records.foldl cxStep ({ session_id := stem } : ParseState)) :=
    foldl_preserve (fun s r hs => cxStep_noErr s r hs) records { session_id := stem }
      (fun kv hkv => absurd hkv (List.not_mem_nil kv))
  rcases List.mem_map.mp hev with ⟨kv, hkv, hkve⟩
  constructor
  · simp only [parse_codex]
    exact List.mem_append_right _ hev
  · rw [← hkve]
    exact hne kv hkv

lemma parse_openclaw_flush (stem : String) (records : List JObj) :
    ∀ ev ∈ (records.foldl ocStep ({ session_id := stem } : ParseState)).pending.map Prod.snd,
      ev ∈ parse_openclaw stem records ∧ ev.error = none := by
  intro ev hev
  have hne : PendNoErr (records.foldl ocStep ({ session_id := stem } : ParseState)) :=
    foldl_preserve (fun s r hs => ocStep_noErr s r hs) records { session_id := stem }
      (fun kv hkv => absurd hkv (List.not_mem_nil kv))
  rcases List.mem_map.mp hev with ⟨kv, hkv, hkve⟩
  constructor
  · simp only [parse_openclaw]
    exact List.mem_append_right _ hev
  · rw [← hkve]
    exact hne kv hkv

/-- A three-record transcript carrying one unresolved tool call for each
parser: a Claude Code assistant record, a Codex `function_call` record and an
OpenClaw assistant message (each parser skips the other two records). -/
def c2recs : List JObj :=
  [[("type", JValue.str "assistant"),
    ("timestamp", JValue.str "2025-01-02T03:04:05Z"),
    ("message", JValue.obj
      [("model", JValue.str "m1"),
       ("content", JValue.arr
         [JValue.obj [("type", JValue.str "tool_use"), ("id", JValue.str "cc1"),
                      ("name", JValue.str "Read")]])])],
   [("type", JValue.str "response_item"),
    ("timestamp", JValue.str "2025-01-02T03:04:06Z"),
    ("payload", JValue.obj
      [("type", JValue.str "function_call"), ("call_id", JValue.str "cx1"),
       ("name", JValue.str "Bash")])],
   [("type", JValue.str "message"),
    ("timestamp", JValue.str "2025-01-02T03:04:07Z"),
    ("message", JValue.obj
      [("role", JValue.str "assistant"),
       ("content", JValue.arr
         [JValue.obj [("type", JValue.str "toolCall"), ("id", JValue.str "oc1"),
                      ("name", JValue.str "Edit")]])])]]

/-- A Claude Code assistant record making two tool calls that share the
correlation id `"x"`. -/
def c2dupRec : JObj :=
  [("type", JValue.str "assistant"),
   ("message", JValue.obj
     [("content", JValue.arr
       [JValue.obj [("type", JValue.str "tool_use"), ("id", JValue.str "x"),
                    ("name", JValue.str "Read")],
        JValue.obj [("type", JValue.str "tool_use"), ("id", JValue.str "x"),
                    ("name", JValue.str "Edit")]])])]

/-- C2 (amended): at end of input each parser flushes its pending table: every
still-pending call event has a null error and is emitted; and when the
transcript's correlation ids are pairwise distinct, the number of emitted
events equals the number of tool calls, so no call is discarded.  (Without
distinctness a later call overwrites an earlier pending one, see the
counterexample.) -/
theorem parsers_flush_pending_no_error (stem : String) (records : List JObj)
    (hcc : (ccCallIds records).Nodup) (hcx : (cxCallIds records).Nodup)
    (hoc : (ocCallIds records).Nodup) :
    ((∀ ev ∈ (records.foldl (ccStep stem) ({} : ParseState)).pending.map Prod.snd,
        ev ∈ parse_claude_code stem records ∧ ev.error = none) ∧
      (parse_claude_code stem records).length = (ccCallIds records).length) ∧
    ((∀ ev ∈ (records.foldl cxStep ({ session_id := stem } : ParseState)).pending.map
          Prod.snd,
        ev ∈ parse_codex stem records ∧ ev.error = none) ∧
      (parse_codex stem records).length = (cxCallIds records).length) ∧
    ((∀ ev ∈ (records.foldl ocStep ({ session_id := stem } : ParseState)).pending.map
          Prod.snd,
        ev ∈ parse_openclaw stem records ∧ ev.error = none) ∧
      (parse_openclaw stem records).length = (ocCallIds records).length) :=
  ⟨⟨parse_claude_code_flush stem records, parse_claude_code_length stem records hcc⟩,
   ⟨parse_codex_flush stem records, parse_codex_length stem records hcx⟩,
   ⟨parse_openclaw_flush stem records, parse_openclaw_length stem records hoc⟩⟩

/-- C2 witness: on the concrete three-record transcript the correlation ids
are distinct and each parser emits exactly its one (flushed) call. -/
theorem parsers_flush_pending_no_error_witness :
    ((ccCallIds c2recs).Nodup ∧ (cxCallIds c2recs).Nodup ∧ (ocCallIds c2recs).Nodup) ∧
    (((∀ ev ∈ (c2recs.foldl (ccStep "s") ({} : ParseState)).pending.map Prod.snd,
        ev ∈ parse_claude_code "s" c2recs ∧ ev.error = none) ∧
      (parse_claude_code "s" c2recs).length = (ccCallIds c2recs).length) ∧
    ((∀ ev ∈ (c2recs.foldl cxStep ({ session_id := "s" } : ParseState)).pending.map
          Prod.snd,
        ev ∈ parse_codex "s" c2recs ∧ ev.error = none) ∧
      (parse_codex "s" c2recs).length = (cxCallIds c2recs).length) ∧
    ((∀ ev ∈ (c2recs.foldl ocStep ({ session_id := "s" } : ParseState)).pending.map
          Prod.snd,
        ev ∈ parse_openclaw "s" c2recs ∧ ev.error = none) ∧
      (parse_openclaw "s" c2recs).length = (ocCallIds c2recs).length)) :=
  ⟨⟨by decide, by decide, by decide⟩,
   parsers_flush_pending_no_error "s" c2recs (by decide) (by decide) (by decide)⟩

/-- C2 counterexample: a Claude Code transcript making two tool calls that
share one correlation id emits a single event; the earlier pending call is
overwritten in the pending table and silently discarded. -/
theorem parse_claude_code_discards_duplicate_id :
    (ccCallIds [c2dupRec]).length = 2 ∧
    (parse_claude_code "s" [c2dupRec]).map (fun e => e.tool) = ["Edit"] := by
  constructor
  · rfl
  · rfl

end ToolTime
